import Mathlib

/-!
Verification of the dual-mode vector-store layer (key/value backend and
relational backend) of the OpenMemory repository.

Strings are modelled as `List Char` (`Str`), vectors as `List ℝ`, and the
two backends as explicit state types.  External collaborators (the vector
codec, the key/value store's glob `SCAN`, the native search engines and the
SQL primitives) are modelled where noted in the doc comments.
-/

set_option maxHeartbeats 1000000

namespace OpenMemory

/-- Strings of the embedded program, as lists of characters. -/
abbrev Str := List Char

/-- A character that has no special meaning in a key/value-store glob
pattern (not `*`, `?`, `[` or backslash). -/
def isOrd (c : Char) : Bool :=
  !(c = '*' || c = '?' || c = '[' || c = '\\')

/-- A string none of whose characters is glob-special. -/
def globFree (u : Str) : Prop := ∀ c ∈ u, isOrd c = true

/-- A string not containing the `:` separator. -/
def colonFree (u : Str) : Prop := ':' ∉ u

instance (u : Str) : Decidable (globFree u) := List.decidableBAll _ u

instance (u : Str) : Decidable (colonFree u) :=
  inferInstanceAs (Decidable (¬ _))

/-- Scan a glob character class (the part after `[`, negation already
stripped): accumulate whether `d` matched, and return the remaining
pattern after the closing `]`.  Modelled from the key/value store's glob
matcher (Redis `stringmatchlen`): escapes, ranges `a-b`, and an unclosed
class ending at the end of the pattern. -/
def classScan : List Char → Char → Bool → Bool × List Char
  | [], _, m => (m, [])
  | '\\' :: e :: rest, d, m => classScan rest d (m || e = d)
  | ']' :: rest, _, m => (m, rest)
  | a :: '-' :: b :: rest, d, m =>
      classScan rest d (m || (min a b ≤ d ∧ d ≤ max a b))
  | a :: rest, d, m => classScan rest d (m || a = d)

theorem classScan_length (p : List Char) (d : Char) (m : Bool) :
    (classScan p d m).2.length ≤ p.length := by
  induction p, d, m using classScan.induct <;> simp_all [classScan] <;> omega

/-- Match a glob character class starting right after `[`: handle the
optional `^` negation, then scan the class body. -/
def classMatch (p : List Char) (d : Char) : Bool × List Char :=
  match p with
  | [] => classScan [] d false
  | c :: rest =>
      if c = '^' then (!(classScan rest d false).1, (classScan rest d false).2)
      else classScan (c :: rest) d false

theorem classMatch_length (p : List Char) (d : Char) :
    (classMatch p d).2.length ≤ p.length := by
  rcases p with _ | ⟨c, rest⟩
  · simp [classMatch, classScan]
  · by_cases hc : c = '^'
    · simpa [classMatch, hc] using Nat.le_succ_of_le (classScan_length rest d false)
    · simpa [classMatch, hc] using classScan_length (c :: rest) d false

/-- The key/value store's glob matcher on a nonempty subject string, and on
recursive positions generally.  Modelled from the key/value store's
`SCAN ... MATCH` glob semantics (Redis `stringmatchlen`, case sensitive):
`*` matches any sequence, `?` any single character, `[...]` a class,
backslash escapes; a pattern exhausted together with the subject matches,
and when the subject is exhausted the remaining pattern matches only if it
consists of `*`s. -/
def matchInner : List Char → List Char → Bool
  | p, [] => p.all (fun c => c = '*')
  | [], _ :: _ => false
  | c :: p, d :: s =>
      if c = '*' then matchInner p (d :: s) || matchInner (c :: p) s
      else if c = '?' then matchInner p s
      else if c = '[' then
        (if (classMatch p d).1 then matchInner (classMatch p d).2 s else false)
      else if c = '\\' then
        (match p with
         | [] => if c = d then matchInner ([] : List Char) s else false
         | e :: p' => if e = d then matchInner p' s else false)
      else if c = d then matchInner p s else false
  termination_by p s => 2 * p.length + s.length
  decreasing_by
    all_goals simp_wf
    all_goals first
      | omega
      | (have h := classMatch_length p d; omega)

/-- Top-level glob match as the key/value store performs it: an empty
subject is matched only by the empty pattern; otherwise `matchInner`. -/
def matchGlob (p s : List Char) : Bool :=
  match s with
  | [] => p.isEmpty
  | _ :: _ => matchInner p s

/-- Split a string on `:` (the JS `key.split(":")`). -/
def splitColon : Str → List Str
  | [] => [[]]
  | ':' :: rest => [] :: splitColon rest
  | c :: rest =>
      match splitColon rest with
      | [] => [[c]]
      | seg :: segs => (c :: seg) :: segs

/-- Last segment of a colon-split key (the JS `key.split(":").pop()`). -/
def lastSeg (l : Str) : Str := (splitColon l).getLastD []

/-- Second segment of a colon-split key (the JS `key.split(":")[1]`). -/
def secondSeg (l : Str) : Str := (splitColon l).getD 1 []

/-! ### External vector codec (§6)

Modelled from the spec: `vectorToBuffer` / `bufferToVector` form a lossless,
deterministic round-trip binary encoding of an ordered sequence of numbers,
so buffers are represented by the vectors themselves and the two codec
functions are mutually inverse by construction. -/

/-- Modelled from the spec: the external codec's encoder (`vectorToBuffer`),
a lossless encoding represented as the identity. -/
def vectorToBuffer (v : List ℝ) : List ℝ := v

/-- Modelled from the spec: the external codec's decoder (`bufferToVector`),
inverse of `vectorToBuffer`, represented as the identity. -/
def bufferToVector (b : List ℝ) : List ℝ := b

/-- The brute-force cosine similarity (`ValkeyVectorStore.cosineSimilarity`;
the relational backend imports the same algorithm from the external codec
module, which §4.4 of the spec defines identically): `0` for vectors of
different lengths, `0` when either sum of squares is zero, and otherwise
`dot / (√na * √nb)` with the accumulator loop rendered as folds. -/
noncomputable def cosineSimilarity (a b : List ℝ) : ℝ :=
  if a.length ≠ b.length then 0
  else
    let dot := (a.zip b).foldl (fun acc p => acc + p.1 * p.2) 0
    let na := a.foldl (fun acc x => acc + x * x) 0
    let nb := b.foldl (fun acc x => acc + x * x) 0
    if na = 0 ∨ nb = 0 then 0 else dot / (Real.sqrt na * Real.sqrt nb)

/-! ### Key/value backend (`ValkeyVectorStore`) -/

/-- The fields of one stored hash: `{v, dim, user_id, id, sector}` as written
by `storeVector`. -/
structure VFields where
  v : List ℝ
  dim : ℕ
  user_id : Str
  id : Str
  sector : Str

/-- The key/value store state: an association list from composite keys to
hash fields (insertion order kept; keys unique in reachable states). -/
abbrev VState := List (Str × VFields)

/-- `getKey`: the composite key `vec:<sector>:<id>`. -/
def getKey (id sector : Str) : Str :=
  "vec:".toList ++ sector ++ ':' :: id

/-- JS truthiness coalescing `user_id || "anonymous"`: an absent or empty
tenant string is replaced by the sentinel. -/
def orAnonymous (uid : Option Str) : Str :=
  match uid with
  | none => "anonymous".toList
  | some u => if u = [] then "anonymous".toList else u

/-- JS truthiness tenant filter `!user_id || vec_user_id === user_id`: absent
or empty `user_id` disables filtering. -/
def tenantOk (uid : Option Str) (ru : Str) : Bool :=
  match uid with
  | none => true
  | some u => if u = [] then true else decide (ru = u)

/-- `HSET key {...}` upsert: replace the hash at `key` if present (all five
fields are written), else append a new entry. -/
def upsert : VState → Str → VFields → VState
  | [], k, f => [(k, f)]
  | (k', f') :: rest, k, f =>
      if k' = k then (k, f) :: rest else (k', f') :: upsert rest k f

/-- Point lookup of a hash by key. -/
def lookupKey : VState → Str → Option VFields
  | [], _ => none
  | (k', f') :: rest, k => if k' = k then some f' else lookupKey rest k

/-- `ValkeyVectorStore.storeVector`: one atomic `HSET` of all five fields
under the composite key. -/
def valkeyStoreVector (st : VState) (id sector : Str) (vector : List ℝ)
    (dim : ℕ) (uid : Option Str) : VState :=
  upsert st (getKey id sector)
    { v := vectorToBuffer vector, dim := dim, user_id := orAnonymous uid,
      id := id, sector := sector }

/-- `ValkeyVectorStore.deleteVector`: `DEL` of the single composite key. -/
def valkeyDeleteVector (st : VState) (id sector : Str) : VState :=
  st.filter (fun e => !decide (e.1 = getKey id sector))

/-- `ValkeyVectorStore.deleteVectors`: the net effect of the cursor-batched
`SCAN MATCH vec:*:<id>` / `DEL` loop — every key matching the glob pattern
is removed. -/
def valkeyDeleteVectors (st : VState) (id : Str) : VState :=
  st.filter (fun e => !matchGlob ("vec:*:".toList ++ id) e.1)

/-- `ValkeyVectorStore.getVector`: `HMGET key v dim`; `null` when the key is
absent, else the decoded vector and its dim. -/
def valkeyGetVector (st : VState) (id sector : Str) :
    Option (List ℝ × ℕ) :=
  match lookupKey st (getKey id sector) with
  | none => none
  | some f => some (bufferToVector f.v, f.dim)

/-- One result row of `getVectorsById`: sector recovered from the key as
`key.split(":")[1]`. -/
structure SectorVec where
  sector : Str
  vector : List ℝ
  dim : ℕ

/-- One result row of `getVectorsBySector`: id recovered from the key as
`key.split(":").pop()`. -/
structure IdVec where
  id : Str
  vector : List ℝ
  dim : ℕ

/-- `ValkeyVectorStore.getVectorsById`: net effect of the batched
`SCAN MATCH vec:*:<id>` plus pipelined `HMGET v dim`, with the sector read
from the second colon-segment of each key. -/
def valkeyGetVectorsById (st : VState) (id : Str) : List SectorVec :=
  (st.filter (fun e => matchGlob ("vec:*:".toList ++ id) e.1)).map
    (fun e => { sector := secondSeg e.1, vector := bufferToVector e.2.v,
                dim := e.2.dim })

/-- `ValkeyVectorStore.getVectorsBySector`: net effect of the batched
`SCAN MATCH vec:<sector>:*` plus pipelined `HMGET v dim`, with the id read
from the last colon-segment of each key. -/
def valkeyGetVectorsBySector (st : VState) (sector : Str) : List IdVec :=
  (st.filter (fun e => matchGlob ("vec:".toList ++ sector ++ ":*".toList) e.1)).map
    (fun e => { id := lastSeg e.1, vector := bufferToVector e.2.v,
                dim := e.2.dim })

/-- A search result `{id, score}`. -/
structure SR where
  id : Str
  score : ℝ

/-- One candidate of the native `FT.SEARCH` reply, after the per-field
extraction loop of `searchSimilar`: the document key plus the `id`,
`score` (KNN distance, already `parseFloat`ed) and `user_id` fields. -/
structure Hit where
  key : Str
  hid : Str
  dist : ℝ
  huser : Str

/-- Build the returned `{id, score}` from a parsed candidate: the stored
`id` field, or the last colon-segment of the key when that field is empty
(`if (!id) id = key.split(":").pop()`), with `score = 1 - dist`. -/
noncomputable def mkSR (h : Hit) : SR :=
  { id := if h.hid = [] then lastSeg h.key else h.hid, score := 1 - h.dist }

/-- The candidate-accumulation loop of the native path: walk candidates in
reply order, keep those passing the tenant filter, and break once `topK`
results have been pushed (the break is tested after each push); `n` is the
number of results accumulated so far. -/
noncomputable def collectHits (uid : Option Str) (topK : ℕ) :
    ℕ → List Hit → List SR
  | _, [] => []
  | n, h :: hs =>
      if tenantOk uid h.huser then
        if n + 1 ≥ topK then [mkSR h]
        else mkSR h :: collectHits uid topK (n + 1) hs
      else collectHits uid topK n hs

/-- Modelled from the spec: the external native search protocol (§6) of the
key/value store — a KNN request against the sector's index `idx:<sector>`
returns up to `count` candidates drawn from that sector's records, each
carrying its stored fields and its cosine distance to the query, ordered by
ascending distance. -/
noncomputable def ftSearchKNN (st : VState) (sector : Str) (q : List ℝ)
    (count : ℕ) : List Hit :=
  ((st.filter (fun e => decide (e.2.sector = sector))).map
    (fun e => { key := e.1, hid := e.2.id,
                dist := 1 - cosineSimilarity q (bufferToVector e.2.v),
                huser := e.2.user_id : Hit })).mergeSort
      (fun a b => decide (a.dist ≤ b.dist)) |>.take count

/-- The native branch of `ValkeyVectorStore.searchSimilar`: request
`2 × topK` candidates (over-fetch for tenant filtering) and run the
accumulation loop. -/
noncomputable def valkeySearchNative (st : VState) (sector : Str)
    (q : List ℝ) (topK : ℕ) (uid : Option Str) : List SR :=
  collectHits uid topK 0 (ftSearchKNN st sector q (topK * 2))

/-- The JS stable sort `sims.sort((a, b) => b.score - a.score)`: stable
descending sort by score. -/
noncomputable def sortByScoreDesc (l : List SR) : List SR :=
  l.mergeSort (fun a b => decide (b.score ≤ a.score))

/-- The fallback branch of `ValkeyVectorStore.searchSimilar`: net effect of
the batched `SCAN MATCH vec:<sector>:*` plus pipelined `HMGET v user_id`,
tenant filtering during the scan, in-process cosine similarity, stable
descending sort, and `slice(0, topK)`. -/
noncomputable def valkeySearchFallback (st : VState) (sector : Str)
    (q : List ℝ) (topK : ℕ) (uid : Option Str) : List SR :=
  (sortByScoreDesc
    (((st.filter
        (fun e => matchGlob ("vec:".toList ++ sector ++ ":*".toList) e.1)).filterMap
      (fun e => if tenantOk uid e.2.user_id then
          some (lastSeg e.1, bufferToVector e.2.v) else none)).map
      (fun p => { id := p.1, score := cosineSimilarity q p.2 : SR }))).take topK

/-- Failure kinds of the native search call, per the spec's §7 error
classification: a backend feature gap (index missing, unsupported query)
versus a transport/connectivity failure. -/
inductive NativeErr
  | unsupported
  | transport

/-- `ValkeyVectorStore.searchSimilar`: the outcome of the native
`FT.SEARCH` call is an explicit argument (`.ok` with the parsed candidate
list, or `.error` with a failure kind).  The `try`/`catch` catches any
failure of the native call and runs the brute-force fallback; a result, not
an error, is returned in every case. -/
noncomputable def valkeySearchSimilar (st : VState)
    (native : Except NativeErr (List Hit)) (sector : Str) (q : List ℝ)
    (topK : ℕ) (uid : Option Str) : Except NativeErr (List SR) :=
  match native with
  | Except.ok hits => Except.ok (collectHits uid topK 0 hits)
  | Except.error _ => Except.ok (valkeySearchFallback st sector q topK uid)

/-! ### Relational backend (`PostgresVectorStore`) -/

/-- One table row: columns `id, sector, user_id, v, dim`, unique on
`(id, sector)`. -/
structure PgRow where
  id : Str
  sector : Str
  user_id : Str
  v : List ℝ
  dim : ℕ

/-- The relational store state: the rows of the vectors table. -/
abbrev PgState := List PgRow

/-- SQL `insert ... on conflict(id,sector) do update`: replace the row with
the same `(id, sector)` if present, else insert. -/
def upsertRow : PgState → PgRow → PgState
  | [], r => [r]
  | r' :: rest, r =>
      if r'.id = r.id ∧ r'.sector = r.sector then r :: rest
      else r' :: upsertRow rest r

/-- SQL `select ... where id=$1 and sector=$2` single-row fetch. -/
def findRow (st : PgState) (id sector : Str) : Option PgRow :=
  st.find? (fun r => decide (r.id = id) && decide (r.sector = sector))

/-- `PostgresVectorStore.storeVector`: an upsert keyed on `(id, sector)`
replacing `user_id`, vector payload and `dim`.  Both construction modes
issue the same upsert; under the identity codec the pgvector JSON encoding
and the compat binary encoding both store the vector itself. -/
def pgStoreVector (st : PgState) (id sector : Str) (vector : List ℝ)
    (dim : ℕ) (uid : Option Str) : PgState :=
  upsertRow st
    { id := id, sector := sector, user_id := orAnonymous uid,
      v := vectorToBuffer vector, dim := dim }

/-- `PostgresVectorStore.deleteVector`: `delete where id=$1 and sector=$2`. -/
def pgDeleteVector (st : PgState) (id sector : Str) : PgState :=
  st.filter (fun r => !(decide (r.id = id) && decide (r.sector = sector)))

/-- `PostgresVectorStore.deleteVectors`: `delete where id=$1`. -/
def pgDeleteVectors (st : PgState) (id : Str) : PgState :=
  st.filter (fun r => !decide (r.id = id))

/-- `PostgresVectorStore.getVector` (either mode; both decode back to the
stored vector under the identity codec). -/
def pgGetVector (usePgVector : Bool) (st : PgState) (id sector : Str) :
    Option (List ℝ × ℕ) :=
  if usePgVector then
    match findRow st id sector with
    | none => none
    | some r => some (r.v, r.dim)
  else
    match findRow st id sector with
    | none => none
    | some r => some (bufferToVector r.v, r.dim)

/-- `PostgresVectorStore.getVectorsById`: `select sector,v,dim where id=$1`. -/
def pgGetVectorsById (usePgVector : Bool) (st : PgState) (id : Str) :
    List SectorVec :=
  if usePgVector then
    (st.filter (fun r => decide (r.id = id))).map
      (fun r => { sector := r.sector, vector := r.v, dim := r.dim })
  else
    (st.filter (fun r => decide (r.id = id))).map
      (fun r => { sector := r.sector, vector := bufferToVector r.v, dim := r.dim })

/-- `PostgresVectorStore.getVectorsBySector`: `select id,v,dim where
sector=$1`. -/
def pgGetVectorsBySector (usePgVector : Bool) (st : PgState) (sector : Str) :
    List IdVec :=
  if usePgVector then
    (st.filter (fun r => decide (r.sector = sector))).map
      (fun r => { id := r.id, vector := r.v, dim := r.dim })
  else
    (st.filter (fun r => decide (r.sector = sector))).map
      (fun r => { id := r.id, vector := bufferToVector r.v, dim := r.dim })

/-- Modelled from the spec: the pgvector cosine-distance operator `<=>` of
the native-mode query, `distance = 1 − cosine similarity`. -/
noncomputable def pgDist (q v : List ℝ) : ℝ := 1 - cosineSimilarity q v

/-- `PostgresVectorStore.searchSimilar`.  Native mode: the engine filters by
sector (and tenant when the `user_id` argument is truthy) in the WHERE
clause, orders by `v <=> $1` ascending, limits to `topK`, and the selected
`1 - (v <=> $1)` is returned as the score.  Compat mode: fetch the
filtered rows, compute cosine similarity client-side, stable-sort
descending, `slice(0, topK)`. -/
noncomputable def pgSearchSimilar (usePgVector : Bool) (st : PgState)
    (sector : Str) (q : List ℝ) (topK : ℕ) (uid : Option Str) : List SR :=
  if usePgVector then
    ((((st.filter
        (fun r => decide (r.sector = sector) && tenantOk uid r.user_id)).map
      (fun r => (r.id, pgDist q r.v))).mergeSort
        (fun a b => decide (a.2 ≤ b.2))).take topK).map
      (fun p => { id := p.1, score := 1 - p.2 : SR })
  else
    (sortByScoreDesc
      ((st.filter
        (fun r => decide (r.sector = sector) && tenantOk uid r.user_id)).map
      (fun r => { id := r.id,
                  score := cosineSimilarity q (bufferToVector r.v) : SR }))).take topK

/-! ### Lemmas about colon-splitting -/

theorem colonFree_cons {c : Char} {u : Str} :
    colonFree (c :: u) ↔ c ≠ ':' ∧ colonFree u := by
  simp only [colonFree, List.mem_cons, not_or]
  exact and_congr_left (fun _ => by constructor <;> exact fun h e => h e.symm)

theorem globFree_cons {c : Char} {u : Str} :
    globFree (c :: u) ↔ isOrd c = true ∧ globFree u := by
  simp [globFree]

theorem colonFree_reverse {u : Str} (h : colonFree u) : colonFree u.reverse := by
  simpa [colonFree] using h

theorem splitColon_ne_nil (l : Str) : splitColon l ≠ [] := by
  induction l with
  | nil => simp [splitColon]
  | cons c rest ih =>
    by_cases hc : c = ':'
    · subst hc; simp [splitColon]
    · rcases h : splitColon rest with _ | ⟨seg, segs⟩
      · exact absurd h ih
      · simp [splitColon, hc, h]

theorem splitColon_colonFree {t : Str} (h : colonFree t) : splitColon t = [t] := by
  induction t with
  | nil => simp [splitColon]
  | cons c rest ih =>
    obtain ⟨hc, hr⟩ := colonFree_cons.1 h
    simp [splitColon, hc, ih hr]

theorem splitColon_append {a : Str} (t : Str) (ha : colonFree a) :
    splitColon (a ++ ':' :: t) = a :: splitColon t := by
  induction a with
  | nil => simp [splitColon]
  | cons c rest ih =>
    obtain ⟨hc, hr⟩ := colonFree_cons.1 ha
    simp [splitColon, hc, ih hr]

theorem getKey_eq (id sector : Str) :
    getKey id sector = ['v', 'e', 'c'] ++ ':' :: (sector ++ ':' :: id) := by
  simp [getKey]

theorem splitColon_getKey {id sector : Str} (hs : colonFree sector) :
    splitColon (getKey id sector) = ['v', 'e', 'c'] :: sector :: splitColon id := by
  rw [getKey_eq, splitColon_append _ (by decide), splitColon_append _ hs]

theorem getLastD_irrel {α : Type} {xs : List α} (h : xs ≠ []) (d1 d2 : α) :
    xs.getLastD d1 = xs.getLastD d2 := by
  rcases xs with _ | ⟨a, xs'⟩
  · exact absurd rfl h
  · rw [List.getLastD_cons, List.getLastD_cons]

theorem splitColon_two_le (l t : Str) :
    2 ≤ (splitColon (l ++ ':' :: t)).length := by
  induction l with
  | nil =>
    rw [List.nil_append]
    have hne := splitColon_ne_nil t
    rcases hsp : splitColon t with _ | ⟨seg, segs⟩
    · exact absurd hsp hne
    · simp [splitColon, hsp]
  | cons c l' ih =>
    by_cases hc : c = ':'
    · subst hc
      rw [List.cons_append]
      have hne := splitColon_ne_nil (l' ++ ':' :: t)
      rcases hsp : splitColon (l' ++ ':' :: t) with _ | ⟨seg, segs⟩
      · exact absurd hsp hne
      · simp [splitColon, hsp]
    · rw [List.cons_append]
      rcases hsp : splitColon (l' ++ ':' :: t) with _ | ⟨seg, segs⟩
      · exact absurd hsp (splitColon_ne_nil _)
      · have h2 := ih
        rw [hsp] at h2
        simp only [List.length_cons] at h2
        simp [splitColon, hc, hsp]
        omega

/-- The last colon-segment of any string of the form `l ++ ":" ++ t` with
`t` colon-free is `t`, whatever `l` contains. -/
theorem lastSeg_colon (l : Str) {t : Str} (ht : colonFree t) :
    lastSeg (l ++ ':' :: t) = t := by
  induction l with
  | nil =>
    rw [List.nil_append, lastSeg]
    rw [show splitColon (':' :: t) = [] :: splitColon t from by
      simp [splitColon]]
    rw [splitColon_colonFree ht, List.getLastD_cons, List.getLastD_cons]
    rfl
  | cons c l' ih =>
    by_cases hc : c = ':'
    · subst hc
      rw [List.cons_append, lastSeg]
      rw [show splitColon (':' :: (l' ++ ':' :: t)) =
          [] :: splitColon (l' ++ ':' :: t) from by simp [splitColon]]
      rw [List.getLastD_cons]
      exact ih
    · rw [List.cons_append, lastSeg]
      rcases hsp : splitColon (l' ++ ':' :: t) with _ | ⟨seg, segs⟩
      · exact absurd hsp (splitColon_ne_nil _)
      · rw [show splitColon (c :: (l' ++ ':' :: t)) = (c :: seg) :: segs from
          by simp [splitColon, hc, hsp]]
        have h2 := splitColon_two_le l' t
        rw [hsp] at h2
        have hne : segs ≠ [] := by
          intro h
          subst h
          simp at h2
        rw [lastSeg, hsp, List.getLastD_cons] at ih
        rw [List.getLastD_cons, getLastD_irrel hne (c :: seg) seg]
        exact ih

/-- The id recovered as the last colon-segment of a composite key equals
the stored id whenever the id is colon-free — for every sector string,
colon-containing or not. -/
theorem lastSeg_getKey {id sector : Str} (hi : colonFree id) :
    lastSeg (getKey id sector) = id := by
  rw [getKey]
  exact lastSeg_colon ("vec:".toList ++ sector) hi

theorem secondSeg_getKey {id sector : Str} (hs : colonFree sector) :
    secondSeg (getKey id sector) = sector := by
  rw [secondSeg, splitColon_getKey hs]
  rfl

/-! ### Lemmas about the glob matcher -/

theorem matchInner_nil (p : List Char) :
    matchInner p [] = p.all (fun c => c = '*') := by
  rw [matchInner.eq_def]
  rcases p with _ | ⟨c, p⟩ <;> rfl

theorem matchInner_nil_pat (d : Char) (s : List Char) :
    matchInner [] (d :: s) = false := by
  rw [matchInner.eq_def]

theorem matchInner_star (p : List Char) (d : Char) (s : List Char) :
    matchInner ('*' :: p) (d :: s) =
      (matchInner p (d :: s) || matchInner ('*' :: p) s) := by
  rw [matchInner.eq_def]
  simp

theorem matchInner_lit {c : Char} (h : isOrd c = true) (p : List Char)
    (d : Char) (s : List Char) :
    matchInner (c :: p) (d :: s) = if c = d then matchInner p s else false := by
  have h1 : c ≠ '*' := by intro e; subst e; simp [isOrd] at h
  have h2 : c ≠ '?' := by intro e; subst e; simp [isOrd] at h
  have h3 : c ≠ '[' := by intro e; subst e; simp [isOrd] at h
  have h4 : c ≠ '\\' := by intro e; subst e; simp [isOrd] at h
  rw [matchInner.eq_def]
  simp [h1, h2, h3, h4]

theorem matchInner_lit_nil {c : Char} (h : c ≠ '*') (p : List Char) :
    matchInner (c :: p) [] = false := by
  rw [matchInner_nil]
  simp [h]

theorem matchInner_star_only (s : List Char) : matchInner ['*'] s = true := by
  induction s with
  | nil => rw [matchInner_nil]; simp
  | cons d s ih =>
    rw [matchInner_star]
    simp [ih]

theorem matchInner_lit_prefix {u : Str} (hu : globFree u) (p : List Char) :
    ∀ s, matchInner (u ++ p) s = true ↔
      ∃ s', s = u ++ s' ∧ matchInner p s' = true := by
  induction u with
  | nil => intro s; simp
  | cons c u' ih =>
    intro s
    obtain ⟨hc, hu'⟩ := globFree_cons.1 hu
    have hcs : c ≠ '*' := by intro e; subst e; simp [isOrd] at hc
    cases s with
    | nil =>
      rw [List.cons_append, matchInner_lit_nil hcs]
      simp
    | cons d s' =>
      rw [List.cons_append, matchInner_lit hc]
      by_cases hcd : c = d
      · subst hcd
        simp only [if_pos rfl, List.cons_append, List.cons.injEq, true_and]
        exact ih hu' s'
      · simp [if_neg hcd, List.cons_append, List.cons.injEq, Ne.symm hcd]

theorem matchInner_lit_only {u : Str} (hu : globFree u) (s : List Char) :
    matchInner u s = true ↔ s = u := by
  have h := matchInner_lit_prefix hu [] s
  rw [List.append_nil] at h
  rw [h]
  constructor
  · rintro ⟨t, rfl, ht⟩
    cases t with
    | nil => simp
    | cons d t' => rw [matchInner_nil_pat] at ht; exact absurd ht (by simp)
  · rintro rfl
    exact ⟨[], by simp, by rw [matchInner_nil]; simp⟩

theorem matchInner_star_suffix {p : List Char} (h0 : matchInner p [] = false) :
    ∀ s, matchInner ('*' :: p) s = true ↔
      ∃ t, t <:+ s ∧ matchInner p t = true := by
  have h0' : (p.all fun c => decide (c = '*')) = false := by
    rw [matchInner_nil] at h0; exact h0
  intro s
  induction s with
  | nil =>
    rw [matchInner_nil]
    simp only [List.all_cons]
    constructor
    · intro h
      simp [h0'] at h
    · rintro ⟨t, ht, hm⟩
      rw [List.suffix_nil] at ht
      subst ht
      rw [h0] at hm
      cases hm
  | cons d s' ih =>
    rw [matchInner_star]
    constructor
    · intro h
      simp only [Bool.or_eq_true] at h
      rcases h with h | h
      · exact ⟨d :: s', List.suffix_refl _, h⟩
      · obtain ⟨t, ht, hm⟩ := ih.1 h
        exact ⟨t, ht.trans (List.suffix_cons d s'), hm⟩
    · rintro ⟨t, ht, hm⟩
      simp only [Bool.or_eq_true]
      rcases List.suffix_cons_iff.1 ht with rfl | ht
      · exact Or.inl hm
      · exact Or.inr (ih.2 ⟨t, ht, hm⟩)

/-! ### Forcing lemmas: colon-free segments determine key decompositions -/

theorem prefix_colon_free {a : Str} (x : Str) (ha : colonFree a) :
    ∀ {b : Str} (y : Str), colonFree b →
      ((a ++ ':' :: x) <+: (b ++ ':' :: y) ↔ a = b ∧ x <+: y) := by
  induction a with
  | nil =>
    intro b y hb
    cases b with
    | nil => simp
    | cons c b' =>
      obtain ⟨hc, _⟩ := colonFree_cons.1 hb
      simp [List.cons_prefix_cons, Ne.symm hc]
  | cons c a' ih =>
    intro b y hb
    obtain ⟨hc, ha'⟩ := colonFree_cons.1 ha
    cases b with
    | nil => simp [List.cons_prefix_cons, hc]
    | cons d b' =>
      obtain ⟨_, hb'⟩ := colonFree_cons.1 hb
      simp only [List.cons_append, List.cons_prefix_cons, List.cons.injEq]
      rw [ih ha' y hb']
      tauto

theorem suffix_colon_free {a b : Str} (c : Str) (ha : colonFree a)
    (hb : colonFree b) : ((':' :: a) <:+ (c ++ ':' :: b)) ↔ a = b := by
  rw [← List.reverse_prefix]
  have e1 : (':' :: a).reverse = a.reverse ++ ':' :: ([] : Str) := by simp
  have e2 : (c ++ ':' :: b).reverse = b.reverse ++ ':' :: c.reverse := by simp
  rw [e1, e2, prefix_colon_free [] (colonFree_reverse ha) c.reverse
    (colonFree_reverse hb)]
  constructor
  · rintro ⟨h, -⟩
    simpa using congrArg List.reverse h
  · rintro rfl
    simp

theorem getKey_inj {i1 s1 i2 s2 : Str} (hs1 : colonFree s1)
    (hs2 : colonFree s2) (h : getKey i1 s1 = getKey i2 s2) :
    i1 = i2 ∧ s1 = s2 := by
  rw [getKey, getKey, List.append_assoc, List.append_assoc] at h
  have h' : s1 ++ ':' :: i1 = s2 ++ ':' :: i2 := List.append_cancel_left h
  have hp : (s1 ++ ':' :: i1) <+: (s2 ++ ':' :: i2) := h' ▸ List.prefix_refl _
  obtain ⟨hs, -⟩ := (prefix_colon_free i1 hs1 i2 hs2).1 hp
  subst hs
  exact ⟨List.cons_injective (List.append_cancel_left h'), rfl⟩

/-! ### Characterizations of the two scan patterns on well-formed keys -/

theorem matchGlob_sector_pattern {s : Str} (hgf : globFree s) (i' s' : Str) :
    matchGlob ("vec:".toList ++ s ++ ":*".toList) (getKey i' s') = true ↔
      ("vec:".toList ++ s ++ [':']) <+: getKey i' s' := by
  have hkey : getKey i' s' = 'v' :: ('e' :: 'c' :: ':' :: (s' ++ ':' :: i')) := by
    rw [getKey_eq]; rfl
  have hpat : "vec:".toList ++ s ++ ":*".toList =
      ("vec:".toList ++ s ++ [':']) ++ ['*'] := by simp
  have hu : globFree ("vec:".toList ++ s ++ [':']) := by
    intro c hc
    simp only [List.append_assoc, List.mem_append, List.mem_singleton] at hc
    rcases hc with hc | hc | hc
    · exact (by decide : globFree "vec:".toList) c hc
    · exact hgf c hc
    · subst hc; rfl
  rw [hkey, hpat]
  show matchInner _ _ = true ↔ _
  rw [← hkey, matchInner_lit_prefix hu ['*'] (getKey i' s')]
  constructor
  · rintro ⟨t, he, -⟩
    exact ⟨t, he.symm⟩
  · rintro ⟨t, he⟩
    exact ⟨t, he.symm, matchInner_star_only t⟩

theorem matchGlob_id_pattern {i : Str} (hgf : globFree i) (i' s' : Str) :
    matchGlob ("vec:*:".toList ++ i) (getKey i' s') = true ↔
      (':' :: i) <:+ (s' ++ ':' :: i') := by
  have hkey : getKey i' s' = 'v' :: ('e' :: 'c' :: ':' :: (s' ++ ':' :: i')) := by
    rw [getKey_eq]; rfl
  have hpat : "vec:*:".toList ++ i = "vec:".toList ++ '*' :: ':' :: i := by simp
  have hvec : globFree "vec:".toList := by decide
  rw [hkey, hpat]
  show matchInner _ _ = true ↔ _
  rw [← hkey, matchInner_lit_prefix hvec ('*' :: ':' :: i) (getKey i' s')]
  have hcolon : globFree (':' :: i) := by
    rw [globFree_cons]
    exact ⟨rfl, hgf⟩
  have h0 : matchInner (':' :: i) [] = false := by
    rw [matchInner_nil]
    simp
  constructor
  · rintro ⟨rest, he, hm⟩
    obtain ⟨t, ht, hm'⟩ := (matchInner_star_suffix h0 rest).1 hm
    rw [matchInner_lit_only hcolon] at hm'
    subst hm'
    rw [getKey, List.append_assoc] at he
    rw [List.append_cancel_left he]
    exact ht
  · intro hsu
    refine ⟨s' ++ ':' :: i', by rw [getKey, List.append_assoc], ?_⟩
    exact (matchInner_star_suffix h0 _).2
      ⟨':' :: i, hsu, (matchInner_lit_only hcolon _).2 rfl⟩

/-- On a well-formed key, the sector scan pattern matches exactly the keys
of that sector, provided the queried sector is glob-free and both sectors
are colon-free. -/
theorem matchGlob_sector_key {s s' i' : Str} (hgf : globFree s)
    (hcf : colonFree s) (hcf' : colonFree s') :
    matchGlob ("vec:".toList ++ s ++ ":*".toList) (getKey i' s') = true ↔
      s' = s := by
  rw [matchGlob_sector_pattern hgf i' s', getKey, List.append_assoc,
    List.append_assoc, List.prefix_append_right_inj]
  have : s ++ [':'] = s ++ ':' :: ([] : Str) := rfl
  rw [this, prefix_colon_free [] hcf i' hcf']
  constructor
  · rintro ⟨rfl, -⟩; rfl
  · rintro rfl; exact ⟨rfl, List.nil_prefix⟩

/-- On a well-formed key, the id scan pattern matches exactly the keys of
that id, provided the queried id is glob-free and both ids are
colon-free (the sector may contain anything). -/
theorem matchGlob_id_key {i i' s' : Str} (hgf : globFree i)
    (hcf : colonFree i) (hcf' : colonFree i') :
    matchGlob ("vec:*:".toList ++ i) (getKey i' s') = true ↔ i' = i := by
  rw [matchGlob_id_pattern hgf i' s', suffix_colon_free s' hcf hcf']
  exact eq_comm

/-! ### Fold and sort helpers -/

theorem foldl_add_map {α : Type} (f : α → ℝ) (l : List α) (c : ℝ) :
    l.foldl (fun acc x => acc + f x) c = c + (l.map f).sum := by
  induction l generalizing c with
  | nil => simp
  | cons x xs ih => simp [ih]; ring

theorem sortByScoreDesc_perm (l : List SR) : List.Perm (sortByScoreDesc l) l :=
  List.mergeSort_perm l _

theorem sortByScoreDesc_sorted (l : List SR) :
    (sortByScoreDesc l).Pairwise (fun a b => b.score ≤ a.score) := by
  have h := @List.sorted_mergeSort SR
    (fun a b : SR => decide (b.score ≤ a.score))
    (fun a b c h1 h2 => by
      simp only [decide_eq_true_eq] at *
      exact le_trans h2 h1)
    (fun a b => by
      simp only [Bool.or_eq_true, decide_eq_true_eq]
      exact le_total b.score a.score)
    l
  exact h.imp (fun h => by simpa using h)

theorem sortByDistAsc_sorted (l : List (Str × ℝ)) :
    (l.mergeSort (fun a b => decide (a.2 ≤ b.2))).Pairwise
      (fun a b => a.2 ≤ b.2) := by
  have h := @List.sorted_mergeSort (Str × ℝ)
    (fun a b : Str × ℝ => decide (a.2 ≤ b.2))
    (fun a b c h1 h2 => by
      simp only [decide_eq_true_eq] at *
      exact le_trans h1 h2)
    (fun a b => by
      simp only [Bool.or_eq_true, decide_eq_true_eq]
      exact le_total a.2 b.2)
    l
  exact h.imp (fun h => by simpa using h)

theorem hitSort_sorted (l : List Hit) :
    (l.mergeSort (fun a b => decide (a.dist ≤ b.dist))).Pairwise
      (fun a b => a.dist ≤ b.dist) := by
  have h := @List.sorted_mergeSort Hit
    (fun a b : Hit => decide (a.dist ≤ b.dist))
    (fun a b c h1 h2 => by
      simp only [decide_eq_true_eq] at *
      exact le_trans h1 h2)
    (fun a b => by
      simp only [Bool.or_eq_true, decide_eq_true_eq]
      exact le_total a.dist b.dist)
    l
  exact h.imp (fun h => by simpa using h)

/-! ### Structure of the native-path accumulation loop -/

theorem collectHits_spec (uid : Option Str) (k : ℕ) (hs : List Hit) :
    ∀ n : ℕ, ∃ l', List.Sublist l' hs ∧
      collectHits uid k n hs = l'.map mkSR ∧
      ∀ h ∈ l', tenantOk uid h.huser = true := by
  induction hs with
  | nil => exact fun n => ⟨[], by simp, by simp [collectHits], by simp⟩
  | cons h hs ih =>
    intro n
    by_cases ht : tenantOk uid h.huser = true
    · by_cases hb : n + 1 ≥ k
      · exact ⟨[h], List.Sublist.cons₂ h (List.nil_sublist hs),
          by simp [collectHits, ht, hb], by simp [ht]⟩
      · obtain ⟨l', hsub, heq, hall⟩ := ih (n + 1)
        refine ⟨h :: l', List.Sublist.cons₂ h hsub,
          by simp [collectHits, ht, hb, heq], ?_⟩
        intro x hx
        rcases List.mem_cons.1 hx with rfl | hx
        · exact ht
        · exact hall x hx
    · obtain ⟨l', hsub, heq, hall⟩ := ih n
      exact ⟨l', hsub.cons h, by simp [collectHits, ht, heq], hall⟩

theorem collectHits_length (uid : Option Str) (k : ℕ) (hs : List Hit) :
    ∀ n : ℕ, (collectHits uid k n hs).length ≤ max (k - n) 1 := by
  induction hs with
  | nil => intro n; simp [collectHits]
  | cons h hs ih =>
    intro n
    by_cases ht : tenantOk uid h.huser = true
    · by_cases hb : n + 1 ≥ k
      · simp [collectHits, ht, hb]
      · have := ih (n + 1)
        simp only [collectHits, ht, if_true, hb, if_false, if_neg hb,
          List.length_cons]
        simp only [ge_iff_le, not_le] at hb
        omega
    · simpa [collectHits, ht] using ih n

/-! ### Upsert and lookup lemmas -/

theorem lookupKey_upsert_self (st : VState) (k : Str) (f : VFields) :
    lookupKey (upsert st k f) k = some f := by
  induction st with
  | nil => simp [upsert, lookupKey]
  | cons e rest ih =>
    obtain ⟨k', f'⟩ := e
    by_cases h : k' = k
    · simp [upsert, h, lookupKey]
    · simp [upsert, h, lookupKey, ih]

theorem lookupKey_upsert_other (st : VState) (k k2 : Str) (f : VFields)
    (h : k2 ≠ k) : lookupKey (upsert st k f) k2 = lookupKey st k2 := by
  have h' : ¬k = k2 := fun e => h e.symm
  induction st with
  | nil => simp [upsert, lookupKey, h']
  | cons e rest ih =>
    obtain ⟨k', f'⟩ := e
    by_cases hk : k' = k
    · subst hk
      simp [upsert, lookupKey, h']
    · by_cases hk2 : k' = k2
      · subst hk2
        simp [upsert, hk, lookupKey]
      · simp [upsert, hk, lookupKey, hk2, ih]

theorem mem_upsert {st : VState} {k : Str} {f : VFields} {x : Str × VFields}
    (hx : x ∈ upsert st k f) : x ∈ st ∨ x = (k, f) := by
  induction st with
  | nil => simpa [upsert] using hx
  | cons e rest ih =>
    obtain ⟨k', f'⟩ := e
    by_cases h : k' = k
    · simp only [upsert, if_pos h] at hx
      rcases List.mem_cons.1 hx with rfl | hx
      · exact Or.inr rfl
      · exact Or.inl (List.mem_cons_of_mem _ hx)
    · simp only [upsert, if_neg h] at hx
      rcases List.mem_cons.1 hx with rfl | hx
      · exact Or.inl (List.mem_cons_self _ _)
      · rcases ih hx with hx | hx
        · exact Or.inl (List.mem_cons_of_mem _ hx)
        · exact Or.inr hx

theorem findRow_upsertRow_self (st : PgState) (r : PgRow) :
    findRow (upsertRow st r) r.id r.sector = some r := by
  induction st with
  | nil => simp [upsertRow, findRow]
  | cons r' rest ih =>
    by_cases h : r'.id = r.id ∧ r'.sector = r.sector
    · simp [upsertRow, h, findRow]
    · rw [upsertRow, if_neg h]
      rw [findRow] at ih ⊢
      have hf : (decide (r'.id = r.id) && decide (r'.sector = r.sector)) = false := by
        simpa [Bool.and_eq_true, decide_eq_true_eq] using h
      simp only [List.find?_cons, hf]
      exact ih

theorem findRow_upsertRow_other (st : PgState) (r : PgRow) (id sector : Str)
    (h : ¬(id = r.id ∧ sector = r.sector)) :
    findRow (upsertRow st r) id sector = findRow st id sector := by
  have hr : ¬((decide (r.id = id) && decide (r.sector = sector)) = true) := by
    simp only [Bool.and_eq_true, decide_eq_true_eq]
    intro hc
    exact h ⟨hc.1.symm, hc.2.symm⟩
  have hrf : (decide (r.id = id) && decide (r.sector = sector)) = false := by
    simpa using hr
  induction st with
  | nil =>
    rw [upsertRow, findRow, findRow]
    simp only [List.find?_cons, hrf]
  | cons r' rest ih =>
    by_cases hh : r'.id = r.id ∧ r'.sector = r.sector
    · rw [upsertRow, if_pos hh, findRow, findRow]
      have hrf' : (decide (r'.id = id) && decide (r'.sector = sector)) = false := by
        simp only [Bool.and_eq_true, decide_eq_true_eq, hh.1, hh.2]
        simpa using hr
      simp only [List.find?_cons, hrf, hrf']
    · rw [upsertRow, if_neg hh, findRow, findRow] at *
      rcases hfirst : (decide (r'.id = id) && decide (r'.sector = sector)) with _ | _
      · simp only [List.find?_cons, hfirst]
        exact ih
      · simp only [List.find?_cons, hfirst]

theorem mem_upsertRow {st : PgState} {r x : PgRow}
    (hx : x ∈ upsertRow st r) : x ∈ st ∨ x = r := by
  induction st with
  | nil => simpa [upsertRow] using hx
  | cons r' rest ih =>
    by_cases h : r'.id = r.id ∧ r'.sector = r.sector
    · simp only [upsertRow, if_pos h] at hx
      rcases List.mem_cons.1 hx with rfl | hx
      · exact Or.inr rfl
      · exact Or.inl (List.mem_cons_of_mem _ hx)
    · simp only [upsertRow, if_neg h] at hx
      rcases List.mem_cons.1 hx with rfl | hx
      · exact Or.inl (List.mem_cons_self _ _)
      · rcases ih hx with hx | hx
        · exact Or.inl (List.mem_cons_of_mem _ hx)
        · exact Or.inr hx

theorem sumSq_nonneg (l : List ℝ) : 0 ≤ (l.map (fun x => x * x)).sum := by
  apply List.sum_nonneg
  intro x hx
  obtain ⟨y, -, rfl⟩ := List.mem_map.1 hx
  exact mul_self_nonneg y

/-! ### Claim theorems -/

/-- C2: the shared cosine-similarity function returns 0 for vectors of
different lengths, returns 0 when either vector has zero Euclidean norm,
and otherwise returns the dot product divided by the product of the
Euclidean norms. -/
theorem c2_cosine_similarity (a b : List ℝ) :
    (a.length ≠ b.length → cosineSimilarity a b = 0) ∧
    (Real.sqrt ((a.map (fun x => x * x)).sum) = 0 ∨
       Real.sqrt ((b.map (fun x => x * x)).sum) = 0 →
     cosineSimilarity a b = 0) ∧
    (a.length = b.length →
     Real.sqrt ((a.map (fun x => x * x)).sum) ≠ 0 →
     Real.sqrt ((b.map (fun x => x * x)).sum) ≠ 0 →
     cosineSimilarity a b =
       ((a.zip b).map (fun p => p.1 * p.2)).sum /
         (Real.sqrt ((a.map (fun x => x * x)).sum) *
           Real.sqrt ((b.map (fun x => x * x)).sum))) := by
  have hfa := foldl_add_map (fun x : ℝ => x * x) a 0
  have hfb := foldl_add_map (fun x : ℝ => x * x) b 0
  have hfd := foldl_add_map (fun p : ℝ × ℝ => p.1 * p.2) (a.zip b) 0
  rw [zero_add] at hfa hfb hfd
  have hza : Real.sqrt ((a.map (fun x => x * x)).sum) = 0 ↔
      (a.map (fun x => x * x)).sum = 0 := Real.sqrt_eq_zero (sumSq_nonneg a)
  have hzb : Real.sqrt ((b.map (fun x => x * x)).sum) = 0 ↔
      (b.map (fun x => x * x)).sum = 0 := Real.sqrt_eq_zero (sumSq_nonneg b)
  refine ⟨?_, ?_, ?_⟩
  · intro h
    simp [cosineSimilarity, h]
  · intro h
    by_cases hl : a.length = b.length
    · rcases h with h | h
      · simp [cosineSimilarity, hl, hfa, hza.1 h]
      · simp [cosineSimilarity, hl, hfb, hzb.1 h]
    · simp [cosineSimilarity, hl]
  · intro hl hna hnb
    have ha' : (a.map (fun x => x * x)).sum ≠ 0 := fun e => hna (by rw [hfa] at *; simp [e, Real.sqrt_zero] at *)
    have hb' : (b.map (fun x => x * x)).sum ≠ 0 := fun e => hnb (by rw [hfb] at *; simp [e, Real.sqrt_zero] at *)
    simp [cosineSimilarity, hl, hfa, hfb, hfd, ha', hb']

/-- C2 witness: a concrete instance of the main case at `a = b = [1]`. -/
theorem c2_cosine_similarity_witness :
    ([(1 : ℝ)].length = [(1 : ℝ)].length ∧
     Real.sqrt (([(1 : ℝ)].map (fun x => x * x)).sum) ≠ 0) ∧
    cosineSimilarity [(1 : ℝ)] [(1 : ℝ)] =
      (([(1 : ℝ)].zip [(1 : ℝ)]).map (fun p => p.1 * p.2)).sum /
        (Real.sqrt (([(1 : ℝ)].map (fun x => x * x)).sum) *
          Real.sqrt (([(1 : ℝ)].map (fun x => x * x)).sum)) := by
  have h1 : Real.sqrt (([(1 : ℝ)].map (fun x => x * x)).sum) ≠ 0 := by
    simp [Real.sqrt_one]
  exact ⟨⟨rfl, h1⟩, (c2_cosine_similarity [(1 : ℝ)] [(1 : ℝ)]).2.2 rfl h1 h1⟩

/-- C6: storing a vector and reading it back at the same `(id, sector)`
returns the same vector and dim, on the key/value backend and on the
relational backend in both modes (under the lossless external codec of §6,
modelled as the identity). -/
theorem c6_round_trip (st : VState) (pst : PgState) (id sector : Str)
    (v : List ℝ) (d : ℕ) (uid : Option Str) (mode : Bool) :
    valkeyGetVector (valkeyStoreVector st id sector v d uid) id sector
        = some (v, d) ∧
    pgGetVector mode (pgStoreVector pst id sector v d uid) id sector
        = some (v, d) := by
  constructor
  · rw [valkeyGetVector, valkeyStoreVector, lookupKey_upsert_self]
    rfl
  · have h := findRow_upsertRow_self pst
      { id := id, sector := sector, user_id := orAnonymous uid,
        v := vectorToBuffer v, dim := d }
    simp only [vectorToBuffer] at h
    cases mode <;> simp [pgGetVector, pgStoreVector, vectorToBuffer, h, bufferToVector]

/-- C8 (amended): the `try`/`catch` of the key/value `searchSimilar`
catches every failure of the native search call — transport failures
included — and falls back to the brute-force scan; no native-call failure
is ever propagated to the caller. -/
theorem c8_amended_catch_all (st : VState)
    (native : Except NativeErr (List Hit)) (sector : Str) (q : List ℝ)
    (k : ℕ) (uid : Option Str) :
    (∃ res, valkeySearchSimilar st native sector q k uid = Except.ok res) ∧
    (∀ e, native = Except.error e →
      valkeySearchSimilar st native sector q k uid =
        Except.ok (valkeySearchFallback st sector q k uid)) := by
  cases native <;> simp [valkeySearchSimilar]

/-- C8 witness: the amended theorem applied at a concrete transport
failure on the empty store. -/
theorem c8_amended_catch_all_witness :
    ((Except.error NativeErr.transport : Except NativeErr (List Hit)) =
      Except.error NativeErr.transport) ∧
    valkeySearchSimilar [] (Except.error NativeErr.transport) ("s".toList)
        [(1 : ℝ)] 1 none =
      Except.ok (valkeySearchFallback [] ("s".toList) [(1 : ℝ)] 1 none) :=
  ⟨rfl, (c8_amended_catch_all [] (Except.error NativeErr.transport)
    ("s".toList) [(1 : ℝ)] 1 none).2 NativeErr.transport rfl⟩

/-- C8 counterexample: a transport failure of the native call is not
propagated unchanged; the caller receives an ordinary (fallback) result. -/
theorem c8_counterexample :
    valkeySearchSimilar [] (Except.error NativeErr.transport) ("s".toList)
        [(1 : ℝ)] 1 none = Except.ok [] ∧
    valkeySearchSimilar [] (Except.error NativeErr.transport) ("s".toList)
        [(1 : ℝ)] 1 none ≠ Except.error NativeErr.transport := by
  constructor
  · simp [valkeySearchSimilar, valkeySearchFallback, sortByScoreDesc]
  · simp [valkeySearchSimilar]

/-- Reachable key/value states: produced from the empty store by the
contract operations only, with every `storeVector` call subject to the
spec's write-time requirement that `dim` equal the vector's length (§3). -/
inductive VReach : VState → Prop
  | empty : VReach []
  | store {st : VState} (id sector : Str) (v : List ℝ) (d : ℕ)
      (uid : Option Str) (h : VReach st) (hd : d = v.length) :
      VReach (valkeyStoreVector st id sector v d uid)
  | del {st : VState} (id sector : Str) (h : VReach st) :
      VReach (valkeyDeleteVector st id sector)
  | dels {st : VState} (id : Str) (h : VReach st) :
      VReach (valkeyDeleteVectors st id)

/-- Reachable relational states: produced from the empty table by the
contract operations only, with every `storeVector` call subject to the
spec's write-time requirement that `dim` equal the vector's length (§3). -/
inductive PgReach : PgState → Prop
  | empty : PgReach []
  | store {st : PgState} (id sector : Str) (v : List ℝ) (d : ℕ)
      (uid : Option Str) (h : PgReach st) (hd : d = v.length) :
      PgReach (pgStoreVector st id sector v d uid)
  | del {st : PgState} (id sector : Str) (h : PgReach st) :
      PgReach (pgDeleteVector st id sector)
  | dels {st : PgState} (id : Str) (h : PgReach st) :
      PgReach (pgDeleteVectors st id)

/-- C9: in every store state reachable by the contract's operations (with
`dim = vector length` required at each write, as §3 demands), every
persisted record has its stored dim equal to the length of its stored
vector, on both backends. -/
theorem c9_dim_invariant :
    (∀ st : VState, VReach st → ∀ e ∈ st, e.2.dim = e.2.v.length) ∧
    (∀ pst : PgState, PgReach pst → ∀ r ∈ pst, r.dim = r.v.length) := by
  constructor
  · intro st h
    induction h with
    | empty => simp
    | store id sector v d uid h hd ih =>
      intro e he
      rcases mem_upsert he with he | rfl
      · exact ih e he
      · simpa [vectorToBuffer] using hd
    | del id sector h ih =>
      intro e he
      exact ih e (List.mem_of_mem_filter he)
    | dels id h ih =>
      intro e he
      exact ih e (List.mem_of_mem_filter he)
  · intro pst h
    induction h with
    | empty => simp
    | store id sector v d uid h hd ih =>
      intro r hr
      rcases mem_upsertRow hr with hr | rfl
      · exact ih r hr
      · simpa [vectorToBuffer] using hd
    | del id sector h ih =>
      intro r hr
      exact ih r (List.mem_of_mem_filter hr)
    | dels id h ih =>
      intro r hr
      exact ih r (List.mem_of_mem_filter hr)

/-- C9 witness: the invariant instantiated at a concrete one-write
reachable state on each backend. -/
theorem c9_dim_invariant_witness :
    (∀ e ∈ valkeyStoreVector [] ("i".toList) ("s".toList) [(1 : ℝ)] 1 none,
      e.2.dim = e.2.v.length) ∧
    (∀ r ∈ pgStoreVector [] ("i".toList) ("s".toList) [(1 : ℝ)] 1 none,
      r.dim = r.v.length) :=
  ⟨c9_dim_invariant.1 _
      (VReach.store ("i".toList) ("s".toList) [(1 : ℝ)] 1 none VReach.empty rfl),
   c9_dim_invariant.2 _
      (PgReach.store ("i".toList) ("s".toList) [(1 : ℝ)] 1 none PgReach.empty rfl)⟩

/-- C10: on the key/value backend, identities are recovered from composite
keys by colon-splitting; on every state whose records were written by
`storeVector` (key = `vec:<sector>:<id>`) with colon-free ids and sectors,
`getVectorsById` reports each returned record's stored sector,
`getVectorsBySector` reports each returned record's stored id, and the
fallback search reports each returned record's stored id. -/
theorem c10_split_recovery (st : VState) (i s : Str) (q : List ℝ) (k : ℕ)
    (uid : Option Str)
    (hst : ∀ e ∈ st, e.1 = getKey e.2.id e.2.sector ∧ colonFree e.2.id ∧
      colonFree e.2.sector) :
    (∀ r ∈ valkeyGetVectorsById st i, ∃ e ∈ st,
      r.sector = e.2.sector ∧ r.vector = e.2.v ∧ r.dim = e.2.dim) ∧
    (∀ r ∈ valkeyGetVectorsBySector st s, ∃ e ∈ st,
      r.id = e.2.id ∧ r.vector = e.2.v ∧ r.dim = e.2.dim) ∧
    (∀ r ∈ valkeySearchFallback st s q k uid, ∃ e ∈ st, r.id = e.2.id) := by
  refine ⟨?_, ?_, ?_⟩
  · intro r hr
    rw [valkeyGetVectorsById] at hr
    obtain ⟨e, he, rfl⟩ := List.mem_map.1 hr
    have hest := List.mem_of_mem_filter he
    obtain ⟨hk, hci, hcs⟩ := hst e hest
    refine ⟨e, hest, ?_, rfl, rfl⟩
    rw [hk]
    exact secondSeg_getKey hcs
  · intro r hr
    rw [valkeyGetVectorsBySector] at hr
    obtain ⟨e, he, rfl⟩ := List.mem_map.1 hr
    have hest := List.mem_of_mem_filter he
    obtain ⟨hk, hci, hcs⟩ := hst e hest
    refine ⟨e, hest, ?_, rfl, rfl⟩
    rw [hk]
    exact lastSeg_getKey hci
  · intro r hr
    rw [valkeySearchFallback] at hr
    have hr' := List.mem_of_mem_take hr
    rw [(sortByScoreDesc_perm _).mem_iff] at hr'
    obtain ⟨p, hp, rfl⟩ := List.mem_map.1 hr'
    obtain ⟨e, he, hpe⟩ := List.mem_filterMap.1 hp
    have hest := List.mem_of_mem_filter he
    obtain ⟨hk, hci, hcs⟩ := hst e hest
    refine ⟨e, hest, ?_⟩
    by_cases ht : tenantOk uid e.2.user_id = true
    · rw [if_pos ht] at hpe
      obtain rfl := Option.some_injective _ hpe
      show lastSeg e.1 = e.2.id
      rw [hk]
      exact lastSeg_getKey hci
    · rw [if_neg ht] at hpe
      cases hpe

/-- C10 witness: the recovery theorem at a concrete one-record state
written through `storeVector`. -/
theorem c10_split_recovery_witness :
    (∀ e ∈ valkeyStoreVector [] ("i".toList) ("s".toList) [(1 : ℝ)] 1 none,
      e.1 = getKey e.2.id e.2.sector ∧ colonFree e.2.id ∧
        colonFree e.2.sector) ∧
    ((∀ r ∈ valkeyGetVectorsById
        (valkeyStoreVector [] ("i".toList) ("s".toList) [(1 : ℝ)] 1 none)
        ("i".toList), ∃ e ∈
          valkeyStoreVector [] ("i".toList) ("s".toList) [(1 : ℝ)] 1 none,
      r.sector = e.2.sector ∧ r.vector = e.2.v ∧ r.dim = e.2.dim) ∧
    (∀ r ∈ valkeyGetVectorsBySector
        (valkeyStoreVector [] ("i".toList) ("s".toList) [(1 : ℝ)] 1 none)
        ("s".toList), ∃ e ∈
          valkeyStoreVector [] ("i".toList) ("s".toList) [(1 : ℝ)] 1 none,
      r.id = e.2.id ∧ r.vector = e.2.v ∧ r.dim = e.2.dim) ∧
    (∀ r ∈ valkeySearchFallback
        (valkeyStoreVector [] ("i".toList) ("s".toList) [(1 : ℝ)] 1 none)
        ("s".toList) [(1 : ℝ)] 1 none, ∃ e ∈
          valkeyStoreVector [] ("i".toList) ("s".toList) [(1 : ℝ)] 1 none,
      r.id = e.2.id)) :=
  ⟨by decide,
   c10_split_recovery
     (valkeyStoreVector [] ("i".toList) ("s".toList) [(1 : ℝ)] 1 none)
     ("i".toList) ("s".toList) [(1 : ℝ)] 1 none (by decide)⟩

theorem nodup_keys_upsert (st : VState) (k : Str) (f : VFields)
    (h : (st.map Prod.fst).Nodup) : ((upsert st k f).map Prod.fst).Nodup := by
  induction st with
  | nil => simp [upsert]
  | cons e rest ih =>
    obtain ⟨k', f'⟩ := e
    simp only [List.map_cons, List.nodup_cons] at h
    by_cases hk : k' = k
    · subst hk
      rw [upsert, if_pos rfl]
      simp only [List.map_cons, List.nodup_cons]
      exact h
    · rw [upsert, if_neg hk]
      simp only [List.map_cons, List.nodup_cons]
      refine ⟨?_, ih h.2⟩
      intro hmem
      obtain ⟨e2, he2, hke⟩ := List.mem_map.1 hmem
      rcases mem_upsert he2 with he2 | rfl
      · exact h.1 (hke ▸ List.mem_map_of_mem Prod.fst he2)
      · exact hk hke.symm

theorem filter_key_upsert (st : VState) (k : Str) (f : VFields)
    (h : (st.map Prod.fst).Nodup) :
    (upsert st k f).filter (fun e => decide (e.1 = k)) = [(k, f)] := by
  induction st with
  | nil => simp [upsert]
  | cons e rest ih =>
    obtain ⟨k', f'⟩ := e
    simp only [List.map_cons, List.nodup_cons] at h
    by_cases hk : k' = k
    · subst hk
      rw [upsert, if_pos rfl]
      rw [List.filter_cons_of_pos (by simp)]
      have : rest.filter (fun e => decide (e.1 = k')) = [] := by
        rw [List.filter_eq_nil_iff]
        intro a ha
        simp only [decide_eq_true_eq]
        intro hak
        exact h.1 (hak ▸ List.mem_map_of_mem Prod.fst ha)
      rw [this]
    · rw [upsert, if_neg hk]
      rw [List.filter_cons_of_neg (by simpa using hk)]
      exact ih h.2

theorem nodup_rowkeys_upsertRow (st : PgState) (r : PgRow)
    (h : (st.map (fun x => (x.id, x.sector))).Nodup) :
    ((upsertRow st r).map (fun x => (x.id, x.sector))).Nodup := by
  induction st with
  | nil => simp [upsertRow]
  | cons r' rest ih =>
    simp only [List.map_cons, List.nodup_cons] at h
    by_cases hk : r'.id = r.id ∧ r'.sector = r.sector
    · rw [upsertRow, if_pos hk]
      simp only [List.map_cons, List.nodup_cons]
      refine ⟨?_, h.2⟩
      rw [← hk.1, ← hk.2]
      exact h.1
    · rw [upsertRow, if_neg hk]
      simp only [List.map_cons, List.nodup_cons]
      refine ⟨?_, ih h.2⟩
      intro hmem
      obtain ⟨r2, hr2, hkr⟩ := List.mem_map.1 hmem
      rcases mem_upsertRow hr2 with hr2 | rfl
      · exact h.1 (hkr ▸ List.mem_map_of_mem _ hr2)
      · exact hk ⟨(congrArg Prod.fst hkr).symm, (congrArg Prod.snd hkr).symm⟩

theorem filter_rowkey_upsertRow (st : PgState) (r : PgRow)
    (h : (st.map (fun x => (x.id, x.sector))).Nodup) :
    (upsertRow st r).filter
      (fun x => decide (x.id = r.id) && decide (x.sector = r.sector)) = [r] := by
  induction st with
  | nil => simp [upsertRow]
  | cons r' rest ih =>
    simp only [List.map_cons, List.nodup_cons] at h
    by_cases hk : r'.id = r.id ∧ r'.sector = r.sector
    · rw [upsertRow, if_pos hk]
      rw [List.filter_cons_of_pos (by simp)]
      have : rest.filter
          (fun x => decide (x.id = r.id) && decide (x.sector = r.sector)) = [] := by
        rw [List.filter_eq_nil_iff]
        intro a ha
        simp only [Bool.and_eq_true, decide_eq_true_eq, not_and]
        intro h1 h2
        apply h.1
        have he : (a.id, a.sector) = (r'.id, r'.sector) := by
          rw [h1, h2, hk.1, hk.2]
        exact he ▸ List.mem_map_of_mem _ ha
      rw [this]
    · rw [upsertRow, if_neg hk]
      rw [List.filter_cons_of_neg (by
        simp only [Bool.and_eq_true, decide_eq_true_eq]
        exact fun hc => hk hc)]
      exact ih h.2

/-- C7 (amended): storing twice at the same `(id, sector)` leaves exactly
one record for that key, carrying exactly the second call's fields, on both
backends (given unique keys in the starting state); all other composite
keys are untouched on the key/value backend, and all other `(id, sector)`
pairs are untouched on the relational backend unconditionally and on the
key/value backend provided the sectors involved are colon-free (composite
keys of colon-containing sectors can collide across distinct pairs). -/
theorem c7_amended_upsert (st : VState) (pst : PgState) (id sector : Str)
    (v1 : List ℝ) (d1 : ℕ) (u1 : Option Str) (v2 : List ℝ) (d2 : ℕ)
    (u2 : Option Str)
    (hnd : (st.map Prod.fst).Nodup)
    (hpnd : (pst.map (fun x => (x.id, x.sector))).Nodup) :
    ((valkeyStoreVector (valkeyStoreVector st id sector v1 d1 u1) id sector
        v2 d2 u2).filter (fun e => decide (e.1 = getKey id sector)) =
      [(getKey id sector,
        { v := v2, dim := d2, user_id := orAnonymous u2, id := id,
          sector := sector })]) ∧
    (∀ k2, k2 ≠ getKey id sector →
      lookupKey (valkeyStoreVector (valkeyStoreVector st id sector v1 d1 u1)
        id sector v2 d2 u2) k2 = lookupKey st k2) ∧
    (∀ i2 s2, colonFree sector → colonFree s2 → (i2, s2) ≠ (id, sector) →
      valkeyGetVector (valkeyStoreVector (valkeyStoreVector st id sector
        v1 d1 u1) id sector v2 d2 u2) i2 s2 = valkeyGetVector st i2 s2) ∧
    ((pgStoreVector (pgStoreVector pst id sector v1 d1 u1) id sector
        v2 d2 u2).filter
        (fun x => decide (x.id = id) && decide (x.sector = sector)) =
      [{ id := id, sector := sector, user_id := orAnonymous u2, v := v2,
         dim := d2 }]) ∧
    (∀ i2 s2, ¬(i2 = id ∧ s2 = sector) →
      findRow (pgStoreVector (pgStoreVector pst id sector v1 d1 u1) id sector
        v2 d2 u2) i2 s2 = findRow pst i2 s2) := by
  refine ⟨?_, ?_, ?_, ?_, ?_⟩
  · have h := filter_key_upsert
      (upsert st (getKey id sector)
        { v := vectorToBuffer v1, dim := d1, user_id := orAnonymous u1,
          id := id, sector := sector })
      (getKey id sector)
      { v := vectorToBuffer v2, dim := d2, user_id := orAnonymous u2,
        id := id, sector := sector }
      (nodup_keys_upsert st (getKey id sector)
        { v := vectorToBuffer v1, dim := d1, user_id := orAnonymous u1,
          id := id, sector := sector } hnd)
    simpa [valkeyStoreVector, vectorToBuffer] using h
  · intro k2 hk2
    rw [valkeyStoreVector, valkeyStoreVector,
      lookupKey_upsert_other _ _ _ _ hk2, lookupKey_upsert_other _ _ _ _ hk2]
  · intro i2 s2 hcs hcs2 hne
    have hk2 : getKey i2 s2 ≠ getKey id sector := by
      intro he
      obtain ⟨hi, hs⟩ := getKey_inj hcs2 hcs he
      exact hne (by rw [hi, hs])
    rw [valkeyGetVector, valkeyGetVector, valkeyStoreVector, valkeyStoreVector,
      lookupKey_upsert_other _ _ _ _ hk2, lookupKey_upsert_other _ _ _ _ hk2]
  · have h := filter_rowkey_upsertRow
      (upsertRow pst
        { id := id, sector := sector, user_id := orAnonymous u1,
          v := vectorToBuffer v1, dim := d1 })
      { id := id, sector := sector, user_id := orAnonymous u2,
        v := vectorToBuffer v2, dim := d2 }
      (nodup_rowkeys_upsertRow pst
        { id := id, sector := sector, user_id := orAnonymous u1,
          v := vectorToBuffer v1, dim := d1 } hpnd)
    simpa [pgStoreVector, vectorToBuffer] using h
  · intro i2 s2 hne
    rw [pgStoreVector, pgStoreVector,
      findRow_upsertRow_other _ _ _ _ hne, findRow_upsertRow_other _ _ _ _ hne]

/-- C7 witness: the amended upsert theorem at concrete inputs on empty
starting states. -/
theorem c7_amended_upsert_witness :
    ((([] : VState).map Prod.fst).Nodup ∧
     (([] : PgState).map (fun x => (x.id, x.sector))).Nodup) ∧
    (((valkeyStoreVector (valkeyStoreVector [] ("i".toList) ("s".toList)
        [(1 : ℝ)] 1 none) ("i".toList) ("s".toList) [(2 : ℝ)] 1 none).filter
        (fun e => decide (e.1 = getKey ("i".toList) ("s".toList))) =
      [(getKey ("i".toList) ("s".toList),
        { v := [(2 : ℝ)], dim := 1, user_id := orAnonymous none,
          id := "i".toList, sector := "s".toList })]) ∧
    (∀ k2, k2 ≠ getKey ("i".toList) ("s".toList) →
      lookupKey (valkeyStoreVector (valkeyStoreVector [] ("i".toList)
        ("s".toList) [(1 : ℝ)] 1 none) ("i".toList) ("s".toList) [(2 : ℝ)]
        1 none) k2 = lookupKey [] k2) ∧
    (∀ i2 s2, colonFree ("s".toList) → colonFree s2 →
      (i2, s2) ≠ ("i".toList, "s".toList) →
      valkeyGetVector (valkeyStoreVector (valkeyStoreVector [] ("i".toList)
        ("s".toList) [(1 : ℝ)] 1 none) ("i".toList) ("s".toList) [(2 : ℝ)]
        1 none) i2 s2 = valkeyGetVector [] i2 s2) ∧
    ((pgStoreVector (pgStoreVector [] ("i".toList) ("s".toList) [(1 : ℝ)] 1
        none) ("i".toList) ("s".toList) [(2 : ℝ)] 1 none).filter
        (fun x => decide (x.id = "i".toList) &&
          decide (x.sector = "s".toList)) =
      [{ id := "i".toList, sector := "s".toList, user_id := orAnonymous none,
         v := [(2 : ℝ)], dim := 1 }]) ∧
    (∀ i2 s2, ¬(i2 = "i".toList ∧ s2 = "s".toList) →
      findRow (pgStoreVector (pgStoreVector [] ("i".toList) ("s".toList)
        [(1 : ℝ)] 1 none) ("i".toList) ("s".toList) [(2 : ℝ)] 1 none) i2 s2 =
        findRow [] i2 s2)) :=
  ⟨⟨by decide, by decide⟩,
   c7_amended_upsert [] [] ("i".toList) ("s".toList) [(1 : ℝ)] 1 none
     [(2 : ℝ)] 1 none (by decide) (by decide)⟩

/-- C7 counterexample: on the key/value backend, composite keys of distinct
`(id, sector)` pairs can coincide when the strings contain `:`; storing at
`("b", "s:a")` overwrites the record previously stored at `("a:b", "s")`,
so a store targeting another `(id, sector)` key is not left unaffected. -/
theorem c7_counterexample :
    valkeyGetVector (valkeyStoreVector [] ("a:b".toList) ("s".toList)
        [(1 : ℝ)] 1 none) ("a:b".toList) ("s".toList) = some ([(1 : ℝ)], 1) ∧
    valkeyGetVector (valkeyStoreVector (valkeyStoreVector [] ("a:b".toList)
        ("s".toList) [(1 : ℝ)] 1 none) ("b".toList) ("s:a".toList) [(2 : ℝ)]
        1 none) ("a:b".toList) ("s".toList) = some ([(2 : ℝ)], 1) ∧
    (("b".toList, "s:a".toList) : Str × Str) ≠ ("a:b".toList, "s".toList) := by
  have hk : getKey ("b".toList) ("s:a".toList) =
      getKey ("a:b".toList) ("s".toList) := by decide
  refine ⟨?_, ?_, by decide⟩
  · rw [valkeyGetVector, valkeyStoreVector, lookupKey_upsert_self]
    rfl
  · rw [valkeyGetVector, valkeyStoreVector, valkeyStoreVector, hk,
      lookupKey_upsert_self]
    rfl

/-- C5 (amended): `deleteVectors(id)` removes exactly the records whose
stored id equals the argument — across every sector.  The relational
conjunct is unconditional; the key/value conjunct holds provided the
argument id is free of `:` and of glob metacharacters and all stored ids
are colon-free (the `SCAN MATCH vec:*:<id>` pattern matches by key suffix,
so colon-containing ids can be removed spuriously and glob metacharacters
in the argument change the matched set). -/
theorem c5_amended_delete (st : VState) (pst : PgState) (i : Str) :
    (globFree i → colonFree i →
     (∀ e ∈ st, e.1 = getKey e.2.id e.2.sector ∧ colonFree e.2.id) →
      valkeyDeleteVectors st i = st.filter (fun e => !decide (e.2.id = i))) ∧
    pgDeleteVectors pst i = pst.filter (fun r => !decide (r.id = i)) := by
  constructor
  · intro hgf hcf hst
    rw [valkeyDeleteVectors]
    apply List.filter_congr
    intro e he
    obtain ⟨hk, hci⟩ := hst e he
    rw [hk]
    by_cases he2 : e.2.id = i
    · rw [(matchGlob_id_key hgf hcf hci).2 he2, decide_eq_true he2]
    · have hm : matchGlob ("vec:*:".toList ++ i) (getKey e.2.id e.2.sector)
          = false := by
        cases hmg : matchGlob ("vec:*:".toList ++ i) (getKey e.2.id e.2.sector)
        · rfl
        · exact absurd ((matchGlob_id_key hgf hcf hci).1 hmg) he2
      rw [hm, decide_eq_false he2]
  · rfl

/-- C5 witness: exact deletion at a concrete two-record state written
through `storeVector`. -/
theorem c5_amended_delete_witness :
    (globFree ("i".toList) ∧ colonFree ("i".toList) ∧
     (∀ e ∈ valkeyStoreVector (valkeyStoreVector [] ("i".toList)
        ("s1".toList) [(1 : ℝ)] 1 none) ("j".toList) ("s2".toList)
        [(2 : ℝ)] 1 none,
      e.1 = getKey e.2.id e.2.sector ∧ colonFree e.2.id)) ∧
    (valkeyDeleteVectors (valkeyStoreVector (valkeyStoreVector []
        ("i".toList) ("s1".toList) [(1 : ℝ)] 1 none) ("j".toList)
        ("s2".toList) [(2 : ℝ)] 1 none) ("i".toList) =
      (valkeyStoreVector (valkeyStoreVector [] ("i".toList) ("s1".toList)
        [(1 : ℝ)] 1 none) ("j".toList) ("s2".toList) [(2 : ℝ)] 1
        none).filter (fun e => !decide (e.2.id = "i".toList)) ∧
     pgDeleteVectors ([] : PgState) ("i".toList) =
      ([] : PgState).filter (fun r => !decide (r.id = "i".toList))) :=
  ⟨⟨by decide, by decide, by decide⟩,
   ⟨(c5_amended_delete (valkeyStoreVector (valkeyStoreVector []
        ("i".toList) ("s1".toList) [(1 : ℝ)] 1 none) ("j".toList)
        ("s2".toList) [(2 : ℝ)] 1 none) [] ("i".toList)).1 (by decide)
      (by decide) (by decide),
    (c5_amended_delete (valkeyStoreVector (valkeyStoreVector []
        ("i".toList) ("s1".toList) [(1 : ℝ)] 1 none) ("j".toList)
        ("s2".toList) [(2 : ℝ)] 1 none) [] ("i".toList)).2⟩⟩

/-- C5 counterexample: `deleteVectors("i")` on the key/value backend also
removes the record stored with id `"a:i"` (in sector `"s"`), whose id is
different from the argument, because its key `vec:s:a:i` matches the glob
pattern `vec:*:i`. -/
theorem c5_counterexample :
    valkeyDeleteVectors (valkeyStoreVector [] ("a:i".toList) ("s".toList)
        [(1 : ℝ)] 1 none) ("i".toList) = [] ∧
    (valkeyStoreVector [] ("a:i".toList) ("s".toList) [(1 : ℝ)] 1
        none).length = 1 ∧
    (∀ e ∈ valkeyStoreVector [] ("a:i".toList) ("s".toList) [(1 : ℝ)] 1 none,
      ¬(e.2.id = "i".toList)) := by
  have hm : matchGlob ("vec:*:".toList ++ "i".toList)
      (getKey ("a:i".toList) ("s".toList)) = true :=
    (matchGlob_id_pattern (by decide) ("a:i".toList) ("s".toList)).2 (by decide)
  refine ⟨?_, by decide, by decide⟩
  rw [valkeyDeleteVectors, valkeyStoreVector]
  rw [upsert]
  rw [List.filter_cons_of_neg]
  · rfl
  · intro h
    simp only [hm] at h
    simp at h

/-- C4 (amended): `getVectorsBySector(s)` returns exactly the records
stored under sector `s`.  The relational conjunct is unconditional (either
mode); the key/value conjunct holds provided the queried sector is
colon-free and glob-free and the stored records have colon-free ids and
sectors (the `SCAN MATCH vec:<sector>:*` pattern also matches keys of any
sector that extends `s` after a `:`, and glob metacharacters in `s` widen
the match arbitrarily). -/
theorem c4_amended_sector_isolation (st : VState) (pst : PgState) (s : Str)
    (mode : Bool) :
    (globFree s → colonFree s →
     (∀ e ∈ st, e.1 = getKey e.2.id e.2.sector ∧ colonFree e.2.id ∧
       colonFree e.2.sector) →
      valkeyGetVectorsBySector st s =
        (st.filter (fun e => decide (e.2.sector = s))).map
          (fun e => { id := e.2.id, vector := e.2.v, dim := e.2.dim :
            IdVec })) ∧
    pgGetVectorsBySector mode pst s =
      (pst.filter (fun r => decide (r.sector = s))).map
        (fun r => { id := r.id, vector := r.v, dim := r.dim : IdVec }) := by
  constructor
  · intro hgf hcf hst
    rw [valkeyGetVectorsBySector]
    have hfil : st.filter
        (fun e => matchGlob ("vec:".toList ++ s ++ ":*".toList) e.1) =
        st.filter (fun e => decide (e.2.sector = s)) := by
      apply List.filter_congr
      intro e he
      obtain ⟨hk, hci, hcs⟩ := hst e he
      rw [hk]
      by_cases hes : e.2.sector = s
      · rw [(matchGlob_sector_key hgf hcf hcs).2 hes, decide_eq_true hes]
      · have hm : matchGlob ("vec:".toList ++ s ++ ":*".toList)
            (getKey e.2.id e.2.sector) = false := by
          cases hmg : matchGlob ("vec:".toList ++ s ++ ":*".toList)
            (getKey e.2.id e.2.sector)
          · rfl
          · exact absurd ((matchGlob_sector_key hgf hcf hcs).1 hmg) hes
        rw [hm, decide_eq_false hes]
    rw [hfil]
    apply List.map_congr_left
    intro e he
    obtain ⟨hk, hci, hcs⟩ := hst e (List.mem_of_mem_filter he)
    rw [hk, lastSeg_getKey hci]
    rfl
  · cases mode <;>
      simp only [pgGetVectorsBySector, if_true, if_false, bufferToVector,
        Bool.false_eq_true]

/-- C4 witness: exact sector reads at a concrete two-sector state written
through `storeVector`. -/
theorem c4_amended_sector_isolation_witness :
    (globFree ("s1".toList) ∧ colonFree ("s1".toList) ∧
     (∀ e ∈ valkeyStoreVector (valkeyStoreVector [] ("i".toList)
        ("s1".toList) [(1 : ℝ)] 1 none) ("j".toList) ("s2".toList)
        [(2 : ℝ)] 1 none,
      e.1 = getKey e.2.id e.2.sector ∧ colonFree e.2.id ∧
        colonFree e.2.sector)) ∧
    (valkeyGetVectorsBySector (valkeyStoreVector (valkeyStoreVector []
        ("i".toList) ("s1".toList) [(1 : ℝ)] 1 none) ("j".toList)
        ("s2".toList) [(2 : ℝ)] 1 none) ("s1".toList) =
      ((valkeyStoreVector (valkeyStoreVector [] ("i".toList) ("s1".toList)
        [(1 : ℝ)] 1 none) ("j".toList) ("s2".toList) [(2 : ℝ)] 1
        none).filter (fun e => decide (e.2.sector = "s1".toList))).map
        (fun e => { id := e.2.id, vector := e.2.v, dim := e.2.dim :
          IdVec }) ∧
     pgGetVectorsBySector true ([] : PgState) ("s1".toList) =
      (([] : PgState).filter
        (fun r => decide (r.sector = "s1".toList))).map
        (fun r => { id := r.id, vector := r.v, dim := r.dim : IdVec })) :=
  ⟨⟨by decide, by decide, by decide⟩,
   ⟨(c4_amended_sector_isolation (valkeyStoreVector (valkeyStoreVector []
        ("i".toList) ("s1".toList) [(1 : ℝ)] 1 none) ("j".toList)
        ("s2".toList) [(2 : ℝ)] 1 none) [] ("s1".toList) true).1 (by decide)
      (by decide) (by decide),
    (c4_amended_sector_isolation (valkeyStoreVector (valkeyStoreVector []
        ("i".toList) ("s1".toList) [(1 : ℝ)] 1 none) ("j".toList)
        ("s2".toList) [(2 : ℝ)] 1 none) [] ("s1".toList) true).2⟩⟩

/-- C4 counterexample: the key/value `getVectorsBySector("a")` on a state
holding only a record of sector `"a:b"` returns that record — a record
stored under a different sector — because key `vec:a:b:i` matches the scan
pattern `vec:a:*`. -/
theorem c4_counterexample :
    (valkeyGetVectorsBySector (valkeyStoreVector [] ("i".toList)
        ("a:b".toList) [(1 : ℝ)] 1 none) ("a".toList)).length = 1 ∧
    (∀ e ∈ valkeyStoreVector [] ("i".toList) ("a:b".toList) [(1 : ℝ)] 1 none,
      ¬(e.2.sector = "a".toList)) := by
  have hm : matchGlob ("vec:".toList ++ "a".toList ++ ":*".toList)
      (getKey ("i".toList) ("a:b".toList)) = true :=
    (matchGlob_sector_pattern (by decide) ("i".toList) ("a:b".toList)).2
      (by decide)
  refine ⟨?_, by decide⟩
  rw [valkeyGetVectorsBySector, valkeyStoreVector]
  rw [upsert]
  simp only [List.filter_cons]
  rw [hm]
  rfl

theorem tenantOk_some {u ru : Str} (hu : u ≠ []) :
    tenantOk (some u) ru = true ↔ ru = u := by
  simp [tenantOk, hu]

/-- C3 (amended): for every nonempty tenant string `U`, `searchSimilar`
with `user_id = U` returns only entries arising from records whose stored
`user_id` equals `U`, on the key/value native path (post-filtering), the
key/value fallback scan, and both relational modes (WHERE-clause
filtering).  The nonemptiness condition is forced by JS truthiness: an
empty `user_id` string is falsy and disables the filter entirely. -/
theorem c3_amended_tenant_filter (st : VState) (pst : PgState) (s : Str)
    (q : List ℝ) (k : ℕ) (u : Str) (hu : u ≠ []) :
    (∀ r ∈ valkeySearchNative st s q k (some u), ∃ e ∈ st,
      e.2.user_id = u ∧ (r.id = e.2.id ∨ r.id = lastSeg e.1)) ∧
    (∀ r ∈ valkeySearchFallback st s q k (some u), ∃ e ∈ st,
      e.2.user_id = u ∧ r.id = lastSeg e.1) ∧
    (∀ mode : Bool, ∀ r ∈ pgSearchSimilar mode pst s q k (some u),
      ∃ row ∈ pst, row.user_id = u ∧ r.id = row.id) := by
  refine ⟨?_, ?_, ?_⟩
  · intro r hr
    rw [valkeySearchNative] at hr
    obtain ⟨l', hsub, heq, hall⟩ :=
      collectHits_spec (some u) k (ftSearchKNN st s q (k * 2)) 0
    rw [heq] at hr
    obtain ⟨h, hh, rfl⟩ := List.mem_map.1 hr
    have hhits : h ∈ ftSearchKNN st s q (k * 2) := hsub.subset hh
    rw [ftSearchKNN] at hhits
    have hhits' := List.mem_of_mem_take hhits
    rw [List.mem_mergeSort] at hhits'
    obtain ⟨e, he, rfl⟩ := List.mem_map.1 hhits'
    have hest := List.mem_of_mem_filter he
    refine ⟨e, hest, (tenantOk_some hu).1 (hall _ hh), ?_⟩
    rw [mkSR]
    by_cases hid : e.2.id = ([] : Str)
    · exact Or.inr (by rw [if_pos hid])
    · exact Or.inl (by rw [if_neg hid])
  · intro r hr
    rw [valkeySearchFallback] at hr
    have hr' := List.mem_of_mem_take hr
    rw [(sortByScoreDesc_perm _).mem_iff] at hr'
    obtain ⟨p, hp, rfl⟩ := List.mem_map.1 hr'
    obtain ⟨e, he, hpe⟩ := List.mem_filterMap.1 hp
    have hest := List.mem_of_mem_filter he
    by_cases ht : tenantOk (some u) e.2.user_id = true
    · rw [if_pos ht] at hpe
      obtain rfl := Option.some_injective _ hpe
      exact ⟨e, hest, (tenantOk_some hu).1 ht, rfl⟩
    · rw [if_neg ht] at hpe
      cases hpe
  · intro mode r hr
    cases mode
    · rw [pgSearchSimilar] at hr
      rw [if_neg (by simp)] at hr
      have hr' := List.mem_of_mem_take hr
      rw [(sortByScoreDesc_perm _).mem_iff] at hr'
      obtain ⟨row, hrow, rfl⟩ := List.mem_map.1 hr'
      obtain ⟨hmem, hcond⟩ := List.mem_filter.1 hrow
      rw [Bool.and_eq_true] at hcond
      exact ⟨row, hmem, (tenantOk_some hu).1 hcond.2, rfl⟩
    · rw [pgSearchSimilar] at hr
      rw [if_pos rfl] at hr
      obtain ⟨p, hp, rfl⟩ := List.mem_map.1 hr
      have hp' := List.mem_of_mem_take hp
      rw [List.mem_mergeSort] at hp'
      obtain ⟨row, hrow, rfl⟩ := List.mem_map.1 hp'
      obtain ⟨hmem, hcond⟩ := List.mem_filter.1 hrow
      rw [Bool.and_eq_true] at hcond
      exact ⟨row, hmem, (tenantOk_some hu).1 hcond.2, rfl⟩

/-- C3 witness: the tenant-filter theorem at a concrete one-record state
owned by `"u1"`. -/
theorem c3_amended_tenant_filter_witness :
    ("u1".toList ≠ ([] : Str)) ∧
    ((∀ r ∈ valkeySearchNative (valkeyStoreVector [] ("i".toList)
        ("s".toList) [(1 : ℝ)] 1 (some ("u1".toList))) ("s".toList)
        [(1 : ℝ)] 1 (some ("u1".toList)), ∃ e ∈ valkeyStoreVector []
        ("i".toList) ("s".toList) [(1 : ℝ)] 1 (some ("u1".toList)),
      e.2.user_id = "u1".toList ∧ (r.id = e.2.id ∨ r.id = lastSeg e.1)) ∧
    (∀ r ∈ valkeySearchFallback (valkeyStoreVector [] ("i".toList)
        ("s".toList) [(1 : ℝ)] 1 (some ("u1".toList))) ("s".toList)
        [(1 : ℝ)] 1 (some ("u1".toList)), ∃ e ∈ valkeyStoreVector []
        ("i".toList) ("s".toList) [(1 : ℝ)] 1 (some ("u1".toList)),
      e.2.user_id = "u1".toList ∧ r.id = lastSeg e.1) ∧
    (∀ mode : Bool, ∀ r ∈ pgSearchSimilar mode (pgStoreVector []
        ("i".toList) ("s".toList) [(1 : ℝ)] 1 (some ("u1".toList)))
        ("s".toList) [(1 : ℝ)] 1 (some ("u1".toList)),
      ∃ row ∈ pgStoreVector [] ("i".toList) ("s".toList) [(1 : ℝ)] 1
        (some ("u1".toList)), row.user_id = "u1".toList ∧ r.id = row.id)) :=
  ⟨by decide,
   c3_amended_tenant_filter
     (valkeyStoreVector [] ("i".toList) ("s".toList) [(1 : ℝ)] 1
       (some ("u1".toList)))
     (pgStoreVector [] ("i".toList) ("s".toList) [(1 : ℝ)] 1
       (some ("u1".toList)))
     ("s".toList) [(1 : ℝ)] 1 ("u1".toList) (by decide)⟩

/-- C3 counterexample: with the empty string as the `user_id` argument
(JS-falsy), the relational compat search applies no tenant filter at all:
on a table whose two same-sector records are owned by `"u1"` and `"u2"`,
it returns two results although no stored record is owned by `""`. -/
theorem c3_counterexample :
    (pgSearchSimilar false
        [{ id := "r1".toList, sector := "s".toList, user_id := "u1".toList,
           v := [(1 : ℝ)], dim := 1 },
         { id := "r2".toList, sector := "s".toList, user_id := "u2".toList,
           v := [(1 : ℝ)], dim := 1 }]
        ("s".toList) [(1 : ℝ)] 2 (some [])).length = 2 ∧
    (∀ row ∈
        [{ id := "r1".toList, sector := "s".toList, user_id := "u1".toList,
           v := [(1 : ℝ)], dim := 1 },
         { id := "r2".toList, sector := "s".toList, user_id := "u2".toList,
           v := [(1 : ℝ)], dim := 1 }],
      ¬(PgRow.user_id row = ([] : Str))) := by
  refine ⟨?_, by decide⟩
  rw [pgSearchSimilar, if_neg (by simp)]
  have hrows : List.filter
      (fun r => decide (r.sector = ("s".toList)) &&
        tenantOk (some []) r.user_id)
      ([{ id := "r1".toList, sector := "s".toList, user_id := "u1".toList,
          v := [(1 : ℝ)], dim := 1 },
        { id := "r2".toList, sector := "s".toList, user_id := "u2".toList,
          v := [(1 : ℝ)], dim := 1 }] : PgState) =
      ([{ id := "r1".toList, sector := "s".toList, user_id := "u1".toList,
          v := [(1 : ℝ)], dim := 1 },
        { id := "r2".toList, sector := "s".toList, user_id := "u2".toList,
          v := [(1 : ℝ)], dim := 1 }] : PgState) := by
    rw [List.filter_eq_self]
    intro a ha
    rcases List.mem_cons.1 ha with rfl | ha
    · decide
    · rcases List.mem_cons.1 ha with rfl | ha
      · decide
      · cases ha
  rw [hrows, List.length_take, sortByScoreDesc, List.length_mergeSort]
  rfl

/-- C1 (amended): on every backend and every search path, `searchSimilar`
returns at most `k` entries sorted by non-increasing score, with no
preconditions.  Each returned entry arises from a record of the queried
sector: unconditionally on the relational backend (both modes); on the
key/value native path (over the modelled engine) for every state whose
keys are the composite keys written by `storeVector`; and on the key/value
fallback path provided additionally the queried sector is colon-free and
glob-free and the stored ids and sectors are colon-free (the sector scan
pattern over-matches otherwise). -/
theorem c1_amended_search_contract (st : VState) (pst : PgState) (s : Str)
    (q : List ℝ) (k : ℕ) (uid : Option Str) :
    ((valkeySearchNative st s q k uid).length ≤ k ∧
     (valkeySearchNative st s q k uid).Pairwise
       (fun a b => b.score ≤ a.score) ∧
     ((∀ e ∈ st, e.1 = getKey e.2.id e.2.sector) →
      ∀ r ∈ valkeySearchNative st s q k uid, ∃ e ∈ st,
       e.2.sector = s ∧ r.id = e.2.id)) ∧
    ((valkeySearchFallback st s q k uid).length ≤ k ∧
     (valkeySearchFallback st s q k uid).Pairwise
       (fun a b => b.score ≤ a.score) ∧
     (globFree s → colonFree s →
      (∀ e ∈ st, e.1 = getKey e.2.id e.2.sector ∧ colonFree e.2.id ∧
        colonFree e.2.sector) →
      ∀ r ∈ valkeySearchFallback st s q k uid, ∃ e ∈ st,
       e.2.sector = s ∧ r.id = e.2.id)) ∧
    (∀ mode : Bool,
     (pgSearchSimilar mode pst s q k uid).length ≤ k ∧
     (pgSearchSimilar mode pst s q k uid).Pairwise
       (fun a b => b.score ≤ a.score) ∧
     (∀ r ∈ pgSearchSimilar mode pst s q k uid, ∃ row ∈ pst,
       row.sector = s ∧ r.id = row.id)) := by
  refine ⟨⟨?_, ?_, ?_⟩, ⟨?_, ?_, ?_⟩, ?_⟩
  · rcases Nat.eq_zero_or_pos k with rfl | hk
    · have he : ftSearchKNN st s q (0 * 2) = [] := by
        rw [ftSearchKNN]
        simp
      rw [valkeySearchNative, he]
      simp [collectHits]
    · have h1 := collectHits_length uid k (ftSearchKNN st s q (k * 2)) 0
      rw [valkeySearchNative]
      omega
  · obtain ⟨l', hsub, heq, -⟩ :=
      collectHits_spec uid k (ftSearchKNN st s q (k * 2)) 0
    rw [valkeySearchNative, heq]
    have hhits : (ftSearchKNN st s q (k * 2)).Pairwise
        (fun a b => a.dist ≤ b.dist) := by
      rw [ftSearchKNN]
      exact List.Pairwise.sublist (List.take_sublist _ _) (hitSort_sorted _)
    have hl' := List.Pairwise.sublist hsub hhits
    rw [List.pairwise_map]
    exact hl'.imp (fun hab => sub_le_sub_left hab 1)
  · intro hkeys r hr
    rw [valkeySearchNative] at hr
    obtain ⟨l', hsub, heq, -⟩ :=
      collectHits_spec uid k (ftSearchKNN st s q (k * 2)) 0
    rw [heq] at hr
    obtain ⟨h, hh, rfl⟩ := List.mem_map.1 hr
    have hhits : h ∈ ftSearchKNN st s q (k * 2) := hsub.subset hh
    rw [ftSearchKNN] at hhits
    have hhits' := List.mem_of_mem_take hhits
    rw [List.mem_mergeSort] at hhits'
    obtain ⟨e, he, rfl⟩ := List.mem_map.1 hhits'
    obtain ⟨hest, hcond⟩ := List.mem_filter.1 he
    have hkey := hkeys e hest
    refine ⟨e, hest, of_decide_eq_true hcond, ?_⟩
    rw [mkSR]
    by_cases hid : e.2.id = ([] : Str)
    · rw [if_pos hid, hkey]
      exact lastSeg_getKey (by rw [hid]; exact List.not_mem_nil _)
    · rw [if_neg hid]
  · rw [valkeySearchFallback]
    exact List.length_take_le _ _
  · rw [valkeySearchFallback]
    exact List.Pairwise.sublist (List.take_sublist _ _) (sortByScoreDesc_sorted _)
  · intro hgf hcf hst r hr
    rw [valkeySearchFallback] at hr
    have hr' := List.mem_of_mem_take hr
    rw [(sortByScoreDesc_perm _).mem_iff] at hr'
    obtain ⟨p, hp, rfl⟩ := List.mem_map.1 hr'
    obtain ⟨e, he, hpe⟩ := List.mem_filterMap.1 hp
    obtain ⟨hest, hcond⟩ := List.mem_filter.1 he
    obtain ⟨hkey, hci, hcs⟩ := hst e hest
    have hsec : e.2.sector = s := by
      rw [hkey] at hcond
      exact (matchGlob_sector_key hgf hcf hcs).1 hcond
    by_cases ht : tenantOk uid e.2.user_id = true
    · rw [if_pos ht] at hpe
      obtain rfl := Option.some_injective _ hpe
      refine ⟨e, hest, hsec, ?_⟩
      show lastSeg e.1 = e.2.id
      rw [hkey, lastSeg_getKey hci]
    · rw [if_neg ht] at hpe
      cases hpe
  · intro mode
    cases mode
    · refine ⟨?_, ?_, ?_⟩
      · rw [pgSearchSimilar, if_neg (by simp)]
        exact List.length_take_le _ _
      · rw [pgSearchSimilar, if_neg (by simp)]
        exact List.Pairwise.sublist (List.take_sublist _ _)
          (sortByScoreDesc_sorted _)
      · intro r hr
        rw [pgSearchSimilar, if_neg (by simp)] at hr
        have hr' := List.mem_of_mem_take hr
        rw [(sortByScoreDesc_perm _).mem_iff] at hr'
        obtain ⟨row, hrow, rfl⟩ := List.mem_map.1 hr'
        obtain ⟨hmem, hcond⟩ := List.mem_filter.1 hrow
        rw [Bool.and_eq_true] at hcond
        exact ⟨row, hmem, of_decide_eq_true hcond.1, rfl⟩
    · refine ⟨?_, ?_, ?_⟩
      · rw [pgSearchSimilar, if_pos rfl]
        rw [List.length_map]
        exact List.length_take_le _ _
      · rw [pgSearchSimilar, if_pos rfl]
        rw [List.pairwise_map]
        have hsorted : ((((pst.filter
            (fun r => decide (r.sector = s) && tenantOk uid r.user_id)).map
            (fun r => (r.id, pgDist q r.v))).mergeSort
            (fun a b => decide (a.2 ≤ b.2))).take k).Pairwise
            (fun a b => a.2 ≤ b.2) :=
          List.Pairwise.sublist (List.take_sublist _ _) (sortByDistAsc_sorted _)
        exact hsorted.imp (fun hab => sub_le_sub_left hab 1)
      · intro r hr
        rw [pgSearchSimilar, if_pos rfl] at hr
        obtain ⟨p, hp, rfl⟩ := List.mem_map.1 hr
        have hp' := List.mem_of_mem_take hp
        rw [List.mem_mergeSort] at hp'
        obtain ⟨row, hrow, rfl⟩ := List.mem_map.1 hp'
        obtain ⟨hmem, hcond⟩ := List.mem_filter.1 hrow
        rw [Bool.and_eq_true] at hcond
        exact ⟨row, hmem, of_decide_eq_true hcond.1, rfl⟩

/-- C1 witness: the search-contract theorem at a concrete one-record state
on each backend. -/
theorem c1_amended_search_contract_witness :
    ((∀ e ∈ valkeyStoreVector [] ("i".toList) ("s".toList) [(1 : ℝ)] 1 none,
       e.1 = getKey e.2.id e.2.sector) ∧
     globFree ("s".toList) ∧ colonFree ("s".toList) ∧
     (∀ e ∈ valkeyStoreVector [] ("i".toList) ("s".toList) [(1 : ℝ)] 1 none,
       e.1 = getKey e.2.id e.2.sector ∧ colonFree e.2.id ∧
         colonFree e.2.sector)) ∧
    (((valkeySearchNative (valkeyStoreVector [] ("i".toList) ("s".toList)
        [(1 : ℝ)] 1 none) ("s".toList) [(1 : ℝ)] 1 none).length ≤ 1 ∧
     (valkeySearchNative (valkeyStoreVector [] ("i".toList) ("s".toList)
        [(1 : ℝ)] 1 none) ("s".toList) [(1 : ℝ)] 1 none).Pairwise
       (fun a b => b.score ≤ a.score) ∧
     (∀ r ∈ valkeySearchNative (valkeyStoreVector [] ("i".toList)
        ("s".toList) [(1 : ℝ)] 1 none) ("s".toList) [(1 : ℝ)] 1 none,
       ∃ e ∈ valkeyStoreVector [] ("i".toList) ("s".toList) [(1 : ℝ)] 1 none,
         e.2.sector = "s".toList ∧ r.id = e.2.id)) ∧
    ((valkeySearchFallback (valkeyStoreVector [] ("i".toList) ("s".toList)
        [(1 : ℝ)] 1 none) ("s".toList) [(1 : ℝ)] 1 none).length ≤ 1 ∧
     (valkeySearchFallback (valkeyStoreVector [] ("i".toList) ("s".toList)
        [(1 : ℝ)] 1 none) ("s".toList) [(1 : ℝ)] 1 none).Pairwise
       (fun a b => b.score ≤ a.score) ∧
     (∀ r ∈ valkeySearchFallback (valkeyStoreVector [] ("i".toList)
        ("s".toList) [(1 : ℝ)] 1 none) ("s".toList) [(1 : ℝ)] 1 none,
       ∃ e ∈ valkeyStoreVector [] ("i".toList) ("s".toList) [(1 : ℝ)] 1 none,
         e.2.sector = "s".toList ∧ r.id = e.2.id)) ∧
    (∀ mode : Bool,
     (pgSearchSimilar mode (pgStoreVector [] ("i".toList) ("s".toList)
        [(1 : ℝ)] 1 none) ("s".toList) [(1 : ℝ)] 1 none).length ≤ 1 ∧
     (pgSearchSimilar mode (pgStoreVector [] ("i".toList) ("s".toList)
        [(1 : ℝ)] 1 none) ("s".toList) [(1 : ℝ)] 1 none).Pairwise
       (fun a b => b.score ≤ a.score) ∧
     (∀ r ∈ pgSearchSimilar mode (pgStoreVector [] ("i".toList)
        ("s".toList) [(1 : ℝ)] 1 none) ("s".toList) [(1 : ℝ)] 1 none,
       ∃ row ∈ pgStoreVector [] ("i".toList) ("s".toList) [(1 : ℝ)] 1 none,
         row.sector = "s".toList ∧ r.id = row.id))) :=
  ⟨⟨by decide, by decide, by decide, by decide⟩,
   ⟨⟨(c1_amended_search_contract
       (valkeyStoreVector [] ("i".toList) ("s".toList) [(1 : ℝ)] 1 none)
       (pgStoreVector [] ("i".toList) ("s".toList) [(1 : ℝ)] 1 none)
       ("s".toList) [(1 : ℝ)] 1 none).1.1,
     (c1_amended_search_contract
       (valkeyStoreVector [] ("i".toList) ("s".toList) [(1 : ℝ)] 1 none)
       (pgStoreVector [] ("i".toList) ("s".toList) [(1 : ℝ)] 1 none)
       ("s".toList) [(1 : ℝ)] 1 none).1.2.1,
     (c1_amended_search_contract
       (valkeyStoreVector [] ("i".toList) ("s".toList) [(1 : ℝ)] 1 none)
       (pgStoreVector [] ("i".toList) ("s".toList) [(1 : ℝ)] 1 none)
       ("s".toList) [(1 : ℝ)] 1 none).1.2.2 (by decide)⟩,
    ⟨(c1_amended_search_contract
       (valkeyStoreVector [] ("i".toList) ("s".toList) [(1 : ℝ)] 1 none)
       (pgStoreVector [] ("i".toList) ("s".toList) [(1 : ℝ)] 1 none)
       ("s".toList) [(1 : ℝ)] 1 none).2.1.1,
     (c1_amended_search_contract
       (valkeyStoreVector [] ("i".toList) ("s".toList) [(1 : ℝ)] 1 none)
       (pgStoreVector [] ("i".toList) ("s".toList) [(1 : ℝ)] 1 none)
       ("s".toList) [(1 : ℝ)] 1 none).2.1.2.1,
     (c1_amended_search_contract
       (valkeyStoreVector [] ("i".toList) ("s".toList) [(1 : ℝ)] 1 none)
       (pgStoreVector [] ("i".toList) ("s".toList) [(1 : ℝ)] 1 none)
       ("s".toList) [(1 : ℝ)] 1 none).2.1.2.2 (by decide) (by decide)
       (by decide)⟩,
    (c1_amended_search_contract
       (valkeyStoreVector [] ("i".toList) ("s".toList) [(1 : ℝ)] 1 none)
       (pgStoreVector [] ("i".toList) ("s".toList) [(1 : ℝ)] 1 none)
       ("s".toList) [(1 : ℝ)] 1 none).2.2⟩⟩

/-- C1 counterexample: on the key/value fallback path, a search over
sector `"a"` against a state holding only a record of sector `"a:b"`
returns one entry, although no record is stored under sector `"a"` — the
returned id does not belong to a record of the queried sector. -/
theorem c1_counterexample :
    ((valkeySearchFallback (valkeyStoreVector [] ("i".toList)
        ("a:b".toList) [(1 : ℝ)] 1 none) ("a".toList) [(1 : ℝ)] 1
        none).map (fun r => SR.id r)) = [("i".toList)] ∧
    (∀ e ∈ valkeyStoreVector [] ("i".toList) ("a:b".toList) [(1 : ℝ)] 1 none,
      ¬(e.2.sector = "a".toList)) := by
  have hm : matchGlob ("vec:".toList ++ "a".toList ++ ":*".toList)
      (getKey ("i".toList) ("a:b".toList)) = true :=
    (matchGlob_sector_pattern (by decide) ("i".toList) ("a:b".toList)).2
      (by decide)
  refine ⟨?_, by decide⟩
  rw [valkeySearchFallback, valkeyStoreVector, upsert]
  simp only [List.filter_cons]
  rw [hm, if_pos rfl]
  simp only [List.filter_nil, List.filterMap_cons, List.filterMap_nil,
    tenantOk, eq_self_iff_true, if_true, sortByScoreDesc,
    List.map_cons, List.map_nil, List.mergeSort_singleton]
  decide

end OpenMemory
